import Mathlib

/-!
The sentry-go stack capture pipeline: embedding and verification.

A shallow embedding of `stacktrace.go` (package `sentry`): frame building
(`NewFrame`, `deconstructFunctionName`, `isInAppFrame`), stack extraction
(`extractFrames`), filtering (`filterFrames`) and source-context enrichment
(`contextifyFrames`).

Modelling conventions
* A Go `string` is a sequence of bytes: `GoString := List UInt8`.  Literals are
  written through `utf8`, the UTF-8 encoding of a Lean string literal, as the Go
  compiler does for a string constant.
* Go `int` values are `Int`; no arithmetic that could overflow is performed on
  them by the code embedded here.
* A `nil` slice returned by the source reader is `none`, a non-nil slice is
  `some lines` (the code tests `lines == nil`).
* The context slices of a frame are embedded twice: as the list of their
  elements, and as slice headers over a heap of backing arrays, where `append`
  writes in place when there is spare capacity.  The two embeddings are shown
  to agree on the frames that `NewFrame` builds.
* Functions of the Go standard library and runtime that the code calls
  (`strings.LastIndex`, `strings.Replace`, `strings.Contains`,
  `filepath.Split`, `runtime.CallersFrames`, `Frames.Next`) are modelled from
  their documented behaviour and carry a `strings_`, `filepath_` or `runtime_`
  name.
-/

namespace SentryGo

/-! ## Go strings -/

/-- A Go string: an immutable sequence of bytes. -/
abbrev GoString := List UInt8

/-- UTF-8 bytes of a string literal. -/
def utf8 (s : String) : GoString := s.data.flatMap String.utf8EncodeChar

/-- Go `strings.LastIndex(s, substr)`: the index of the last instance of `substr`
in `s`, or `-1` when `substr` does not occur in `s`. -/
def strings_LastIndex : GoString → GoString → Int
  | [], substr => if substr = [] then 0 else -1
  | c :: t, substr =>
    let r := strings_LastIndex t substr
    if r ≠ -1 then r + 1
    else if substr <+: c :: t then 0
    else -1

/-- Scanning loop of `strings.Replace` with no limit on the number of
replacements.  `skip` counts the bytes of a matched instance of `old` that are
still to be dropped. -/
def replaceScan (old new : GoString) : Nat → GoString → GoString
  | _, [] => []
  | k + 1, _ :: t => replaceScan old new k t
  | 0, c :: t =>
    if old <+: c :: t then new ++ replaceScan old new (old.length - 1) t
    else c :: replaceScan old new 0 t

/-- Go `strings.Replace(s, old, new, -1)` for a non-empty `old`: every
non-overlapping instance of `old`, found from left to right, is replaced by
`new`.  (The rune-boundary behaviour of an empty `old` is not modelled; the
code only calls it with the two-byte marker.) -/
def strings_Replace (s old new : GoString) : GoString :=
  replaceScan old new 0 s

/-- Go `strings.Contains(s, substr)`: whether `substr` is within `s`. -/
def strings_Contains : GoString → GoString → Bool
  | [], substr => decide (substr = [])
  | c :: t, substr => decide (substr <+: c :: t) || strings_Contains t substr

/-- Go `filepath.Split(path)` with the separator `/` and no volume name: splits
immediately after the final separator; without a separator the directory part
is empty and the file part is the whole path. -/
def filepath_Split (path : GoString) : GoString × GoString :=
  let i := strings_LastIndex path (utf8 "/")
  (path.take (i + 1).toNat, path.drop (i + 1).toNat)

/-! ## Constants of the package -/

/-- Go `const unknown string = "unknown"`. -/
def unknown : GoString := utf8 "unknown"

/-- Go `const contextLines int = 5`. -/
def contextLines : Int := 5

/-! ## Data model -/

/-- The fields of Go `runtime.Frame` that `NewFrame` reads. -/
structure RuntimeFrame where
  Function : GoString
  File : GoString
  Line : Int
deriving DecidableEq, Repr

/-- The zero value `runtime.Frame{}`. -/
def RuntimeFrame.zero : RuntimeFrame := { Function := [], File := [], Line := 0 }

/-- Go `type Frame struct`.  `Vars` is a map that this code never populates; it
is kept as an association list. -/
structure Frame where
  Function : GoString := []
  Symbol : GoString := []
  Module : GoString := []
  Package : GoString := []
  Filename : GoString := []
  AbsPath : GoString := []
  Lineno : Int := 0
  Colno : Int := 0
  PreContext : List GoString := []
  ContextLine : GoString := []
  PostContext : List GoString := []
  InApp : Bool := false
  Vars : List (GoString × GoString) := []
deriving DecidableEq, Repr

/-- Go `type Stacktrace struct`; `FramesOmitted` is a `[2]uint`. -/
structure Stacktrace where
  Frames : List Frame
  FramesOmitted : Nat × Nat := (0, 0)
deriving DecidableEq, Repr

/-! ## Frame builder -/

/-- Go `extractFilenameFromPath`. -/
def extractFilenameFromPath (path : GoString) : GoString :=
  (filepath_Split path).2

/-- Go `isInAppFrame`. -/
def isInAppFrame (frame : Frame) : Bool :=
  if frame.Module = utf8 "main" then true
  else if !strings_Contains frame.Module (utf8 "vendor")
      && !strings_Contains frame.Module (utf8 "third_party") then true
  else false

/-- Go `deconstructFunctionName`.  The named results `module` and `function`
start as empty strings and are assigned only when a `.` is found; the marker
replacement is applied to `function` afterwards in both cases. -/
def deconstructFunctionName (name : GoString) : GoString × GoString :=
  let idx := strings_LastIndex name (utf8 ".")
  let (module, function) : GoString × GoString :=
    if idx ≠ -1 then (name.take idx.toNat, name.drop (idx + 1).toNat)
    else ([], [])
  (module, strings_Replace function (utf8 "·") (utf8 "."))

/-- Go `NewFrame`. -/
def NewFrame (f : RuntimeFrame) : Frame :=
  let abspath := f.File
  let filename := f.File
  let function := f.Function
  let filename := if filename ≠ [] then extractFilenameFromPath filename else unknown
  let abspath := if abspath = [] then unknown else abspath
  let (module, function) : GoString × GoString :=
    if function ≠ [] then deconstructFunctionName function else ([], function)
  let frame : Frame :=
    { AbsPath := abspath, Filename := filename, Lineno := f.Line,
      Module := module, Function := function }
  { frame with InApp := isInAppFrame frame }

/-! ## Stack extractor -/

/-- Go `runtime.Frames`: the iterator returned by `runtime.CallersFrames`,
holding the call-stack entries not yet returned, innermost first. -/
structure runtime_Frames where
  pending : List RuntimeFrame
deriving DecidableEq, Repr

/-- Go `(*runtime.Frames).Next`: returns the next entry and whether a further
call will return a valid entry; once all entries have been returned (or when
there are none at all) it returns the zero `Frame` and `false`. -/
def runtime_Frames.Next (ci : runtime_Frames) : RuntimeFrame × Bool × runtime_Frames :=
  match ci.pending with
  | [] => (RuntimeFrame.zero, false, ci)
  | r :: rest => (r, !rest.isEmpty, { pending := rest })

/-- Go `runtime.CallersFrames(pcs)`.  The symbol table of the running binary,
which turns a sequence of return addresses into call-stack entries, is the
parameter `symtab`. -/
def runtime_CallersFrames (symtab : List Nat → List RuntimeFrame) (pcs : List Nat) :
    runtime_Frames :=
  { pending := symtab pcs }

/-- The `for` loop of Go `extractFrames`, bounded by `fuel` iterations: `none`
when the bound is reached before the loop breaks. -/
def extractFramesLoop : Nat → runtime_Frames → List Frame → Option (List Frame)
  | 0, _, _ => none
  | fuel + 1, callersFrames, frames =>
    match callersFrames.Next with
    | (callerFrame, more, callersFrames) =>
      let frames := [NewFrame callerFrame] ++ frames
      if !more then some frames
      else extractFramesLoop fuel callersFrames frames

/-- Go `extractFrames`.  The loop is run with one iteration more than there are
pending entries, which `extractFramesLoop_pending` shows is always enough. -/
def extractFrames (symtab : List Nat → List RuntimeFrame) (pcs : List Nat) : List Frame :=
  let callersFrames := runtime_CallersFrames symtab pcs
  (extractFramesLoop (callersFrames.pending.length + 1) callersFrames []).getD []

/-! ## Frame filter -/

/-- Go `filterFrames`. -/
def filterFrames (frames : List Frame) : List Frame :=
  frames.foldl
    (fun filteredFrames frame =>
      if frame.Module = utf8 "runtime" ∨ frame.Module = utf8 "testing" then filteredFrames
      else filteredFrames ++ [frame])
    []

/-! ## Context enricher -/

/-- The source reader `sourceReader.ReadContextLines(filename, line, context)`,
whose implementation is outside the embedded sources: it returns the window of
lines (`none` for a `nil` slice, the not-found result) and the index of the
target line within the window.  It is taken as a function of its arguments:
the cache it keeps is assumed not to change what it returns. -/
abbrev SourceReader := GoString → Int → Int → Option (List GoString) × Int

/-- One iteration of the inner `for i, line := range lines` loop of
`contextifyFrames`, on the value of the frame: `append` adds the line to the
elements that the slice reads.  This is what Go's `append` does to a frame
whose slice has no spare capacity shared with another frame, as is the case
for the frames built by `NewFrame`, whose context slices are `nil`
(`contextifyFramesMem_refines`, `pipeline_refines`); `contextifyLineMem` below
is the same iteration over slice headers and backing arrays. -/
def contextifyLine (initial : Int) (frame : Frame) (i : Nat) (line : GoString) : Frame :=
  if (i : Int) < initial then { frame with PreContext := frame.PreContext ++ [line] }
  else if (i : Int) = initial then { frame with ContextLine := line }
  else { frame with PostContext := frame.PostContext ++ [line] }

/-- The inner loop of `contextifyFrames` over the lines from index `i` on, on
the value of the frame. -/
def contextifyLines (initial : Int) : Nat → List GoString → Frame → Frame
  | _, [], frame => frame
  | i, line :: rest, frame =>
    contextifyLines initial (i + 1) rest (contextifyLine initial frame i line)

/-- Go `contextifyFrames`, with the package-level `sourceReader` as a
parameter, on the values of the frames.  `contextifyFramesMem` below is the
same function over stored frames; the two agree on frames with `nil` context
slices, which are the frames that the capture entry points pass. -/
def contextifyFrames (reader : SourceReader) (frames : List Frame) : List Frame :=
  frames.foldl
    (fun contextifiedFrames frame =>
      match reader frame.AbsPath frame.Lineno contextLines with
      | (none, _) => contextifiedFrames
      | (some lines, initial) =>
        contextifiedFrames ++ [contextifyLines initial 0 lines frame])
    []

/-- Whether the reader returns a window (a non-nil slice) for the frame. -/
def windowFound (reader : SourceReader) (frame : Frame) : Bool :=
  (reader frame.AbsPath frame.Lineno 5).1.isSome

/-- The frame that `contextifyFrames` appends for a frame with a window. -/
def contextified (reader : SourceReader) (frame : Frame) : Frame :=
  contextifyLines (reader frame.AbsPath frame.Lineno 5).2 0
    ((reader frame.AbsPath frame.Lineno 5).1.getD []) frame

/-- The fields on which a frame and its enrichment must agree: every field of
`Frame` other than PreContext, ContextLine and PostContext. -/
def sameOutsideContext (a b : Frame) : Prop :=
  a.Function = b.Function ∧ a.Symbol = b.Symbol ∧ a.Module = b.Module
    ∧ a.Package = b.Package ∧ a.Filename = b.Filename ∧ a.AbsPath = b.AbsPath
    ∧ a.Lineno = b.Lineno ∧ a.Colno = b.Colno ∧ a.InApp = b.InApp ∧ a.Vars = b.Vars

/-! ## Context enricher over slices with capacity

The definitions above read a frame's PreContext and PostContext as values.  In
Go they are slices, and `append` writes into the backing array of a slice that
has spare capacity, so two frames whose slices share a backing array can
overwrite each other's context.  The definitions below embed the same loops
over slice headers and a heap of backing arrays.  `NewFrame` leaves both slices
`nil`; for such frames the two embeddings agree
(`contextifyFramesMem_refines`). -/

/-- A Go slice header of a `[]string`: the backing array it points into (by
its index in the heap), the offset of its first element in that array, its
length and its capacity.  A slice with capacity 0 has no backing array. -/
structure Slice where
  array : Nat
  off : Nat
  len : Nat
  cap : Nat
deriving DecidableEq, Repr

/-- The `nil` slice. -/
def Slice.nil : Slice := { array := 0, off := 0, len := 0, cap := 0 }

/-- The backing arrays allocated so far; an array is named by its index. -/
abbrev Heap := List (List GoString)

/-- The elements of a slice. -/
def Slice.read (H : Heap) (s : Slice) : List GoString :=
  ((H.getD s.array []).drop s.off).take s.len

/-- Go built-in `append(s, x)` for one element.  With spare capacity the element
is written into the backing array, just after the last element of `s`, and the
result shares that array.  Otherwise a new array is allocated that holds the
elements of `s`, then `x`, then empty strings up to its capacity; that capacity
is at least the new length and otherwise chosen by the runtime (`grow`, from
the old capacity and the new length). -/
def go_append (grow : Nat → Nat → Nat) (H : Heap) (s : Slice) (x : GoString) : Heap × Slice :=
  if s.len < s.cap then
    (H.set s.array ((H.getD s.array []).set (s.off + s.len) x), { s with len := s.len + 1 })
  else
    let newcap := max (s.len + 1) (grow s.cap (s.len + 1))
    (H ++ [s.read H ++ [x] ++ List.replicate (newcap - (s.len + 1)) []],
      { array := H.length, off := 0, len := s.len + 1, cap := newcap })

/-- A `Frame` as it is stored: the headers of its two context slices, and its
other fields in `fields` (whose two context lists are not read). -/
structure FrameMem where
  fields : Frame
  PreContext : Slice
  PostContext : Slice
deriving DecidableEq, Repr

/-- The frame that a stored frame denotes in a heap. -/
def FrameMem.value (H : Heap) (fm : FrameMem) : Frame :=
  { fm.fields with
    PreContext := fm.PreContext.read H
    PostContext := fm.PostContext.read H }

/-- A frame stored with `nil` context slices, as `NewFrame` builds it. -/
def FrameMem.ofFrame (frame : Frame) : FrameMem :=
  { fields := frame, PreContext := Slice.nil, PostContext := Slice.nil }

/-- One iteration of the inner loop of `contextifyFrames`, on a stored frame. -/
def contextifyLineMem (grow : Nat → Nat → Nat) (initial : Int) (H : Heap) (frame : FrameMem)
    (i : Nat) (line : GoString) : Heap × FrameMem :=
  if (i : Int) < initial then
    ((go_append grow H frame.PreContext line).1,
      { frame with PreContext := (go_append grow H frame.PreContext line).2 })
  else if (i : Int) = initial then
    (H, { frame with fields := { frame.fields with ContextLine := line } })
  else
    ((go_append grow H frame.PostContext line).1,
      { frame with PostContext := (go_append grow H frame.PostContext line).2 })

/-- The inner loop of `contextifyFrames` over the lines from index `i` on, on a
stored frame. -/
def contextifyLinesMem (grow : Nat → Nat → Nat) (initial : Int) :
    Nat → List GoString → Heap → FrameMem → Heap × FrameMem
  | _, [], H, frame => (H, frame)
  | i, line :: rest, H, frame =>
    contextifyLinesMem grow initial (i + 1) rest
      (contextifyLineMem grow initial H frame i line).1
      (contextifyLineMem grow initial H frame i line).2

/-- The body of the outer loop of `contextifyFrames`, on the heap and the
frames appended so far. -/
def contextifyFrameMem (grow : Nat → Nat → Nat) (reader : SourceReader)
    (state : Heap × List FrameMem) (frame : FrameMem) : Heap × List FrameMem :=
  match reader frame.fields.AbsPath frame.fields.Lineno contextLines with
  | (none, _) => state
  | (some lines, initial) =>
    ((contextifyLinesMem grow initial 0 lines state.1 frame).1,
      state.2 ++ [(contextifyLinesMem grow initial 0 lines state.1 frame).2])

/-- Go `contextifyFrames` on stored frames: the heap after the call and the
frames it returns. -/
def contextifyFramesMem (grow : Nat → Nat → Nat) (reader : SourceReader) (H : Heap)
    (frames : List FrameMem) : Heap × List FrameMem :=
  frames.foldl (contextifyFrameMem grow reader) (H, [])

/-- The frames returned by `contextifyFramesMem`, read in the heap it leaves. -/
def contextifyFramesValues (grow : Nat → Nat → Nat) (reader : SourceReader) (H : Heap)
    (frames : List FrameMem) : List Frame :=
  (contextifyFramesMem grow reader H frames).2.map
    (FrameMem.value (contextifyFramesMem grow reader H frames).1)

/-- Whether the reader returns a window for a stored frame. -/
def windowFoundMem (reader : SourceReader) (frame : FrameMem) : Bool :=
  (reader frame.fields.AbsPath frame.fields.Lineno 5).1.isSome

/-- A slice with spare capacity points into one of the first `n` backing
arrays: the condition under which a slice header is valid in a heap of `n`
arrays, as far as `append` can tell. -/
def Slice.spareIn (n : Nat) (s : Slice) : Prop :=
  s.len < s.cap → s.array < n

/-- Both context slices of a stored frame are valid in a heap of `n` arrays. -/
def FrameMem.spareIn (n : Nat) (frame : FrameMem) : Prop :=
  frame.PreContext.spareIn n ∧ frame.PostContext.spareIn n

/-- A slice with spare capacity points below array `n` or at array `m` or
above: it cannot write into the arrays from `n` up to `m`. -/
def Slice.avoids (n m : Nat) (s : Slice) : Prop :=
  s.len < s.cap → s.array < n ∨ m ≤ s.array

/-- A slice that is empty without capacity, or that starts a backing array
allocated at index `b` or above and lies within it. -/
def Slice.ownedFrom (b : Nat) (H : Heap) (s : Slice) : Prop :=
  (s.len = 0 ∧ s.cap = 0)
    ∨ (b ≤ s.array ∧ s.array < H.length ∧ s.off = 0 ∧ s.len ≤ s.cap
        ∧ s.cap ≤ (H.getD s.array []).length)

/-- Two slices that cannot write into each other's elements. -/
def Slice.apart (s t : Slice) : Prop :=
  s.cap = 0 ∨ t.cap = 0 ∨ s.array ≠ t.array

/-- Modelled from the spec: the out-of-range rule of the Source Reader contract
(section 4.1: "If `targetLine` itself is out of range for the file, result is
not found"), for target lines below the first line.  Source lines are 1-based
(section 3), so a target line below 1 is out of range for every file.  The
reader's code is outside the embedded sources. -/
def ReaderRejectsLinesBelowOne (reader : SourceReader) : Prop :=
  ∀ (filename : GoString) (line context : Int), line < 1 →
    (reader filename line context).1 = none

/-! ## Capture entry points -/

/-- Go `runtime.Callers(skip, pcs)`: writes the return addresses of the calling
goroutine's stack, after skipping `skip` frames, into the buffer `pcs` and
returns how many it wrote, together with the buffer.  `stack` is the
goroutine's stack, innermost first, starting with the frame of `Callers`
itself. -/
def runtime_Callers (stack : List Nat) (skip : Nat) (pcs : List Nat) : Nat × List Nat :=
  let captured := (stack.drop skip).take pcs.length
  (captured.length, captured ++ pcs.drop captured.length)

/-- Go `NewStacktrace`, with the goroutine's stack, the symbol table and the
source reader as parameters; `nil` is `none`. -/
def NewStacktrace (symtab : List Nat → List RuntimeFrame) (reader : SourceReader)
    (stack : List Nat) : Option Stacktrace :=
  let pcs := List.replicate 100 0
  let (n, pcs) := runtime_Callers stack 1 pcs
  if n = 0 then none
  else
    let frames := extractFrames symtab (pcs.take n)
    let frames := filterFrames frames
    let frames := contextifyFrames reader frames
    some { Frames := frames }

/-! ## Foreign stack bridge -/

/-- A run-time panic that aborts the call. -/
inductive GoPanic where
  /-- The message "reflect: call of reflect.Value.MethodByName on zero Value". -/
  | methodByNameOnZeroValue
  /-- The message "reflect: Call with too few input arguments". -/
  | callWithTooFewArguments
  /-- The message "index out of range [0] with length 0". -/
  | indexOutOfRange
  /-- The message "reflect: call of reflect.Value.Uint on ... Value". -/
  | uintOnOtherKind
deriving DecidableEq, Repr

/-- An element of a slice as `reflect` shows it, by its `Kind`. -/
inductive ElemValue where
  /-- Kind `Uint`, `Uint8`, `Uint16`, `Uint32`, `Uint64` or `Uintptr`. -/
  | unsigned (n : Nat)
  /-- Kind `Int`, `Int8`, `Int16`, `Int32` or `Int64`. -/
  | signed (n : Int)
  /-- Kind `String`. -/
  | string (s : GoString)
  /-- Any other Kind. -/
  | other
deriving DecidableEq, Repr

/-- Go `reflect.Value.Uint`: the underlying value as a `uint64`; it panics when
the Kind is not an unsigned integer kind. -/
def ElemValue.Uint : ElemValue → Except GoPanic Nat
  | .unsigned n => .ok (n % 2 ^ 64)
  | _ => .error .uintOnOtherKind

/-- Go conversion `uintptr(x)` of a `uint64` on a 64-bit platform. -/
def uintptr (x : Nat) : Nat := x % 2 ^ 64

/-- A value returned by a method as `reflect` shows it: of Kind `Slice`, with
its elements, or of another Kind. -/
inductive ReflectValue where
  | slice (elems : List ElemValue)
  | nonSlice
deriving DecidableEq, Repr

/-- A method found by `MethodByName`: the number of its parameters (the
receiver not counted), whether its last parameter is variadic, and the results
it returns when called. -/
structure Method where
  numIn : Nat
  isVariadic : Bool
  results : List ReflectValue
deriving DecidableEq, Repr

/-- An `error` interface value as `ExtractStacktrace` inspects it: the nil
interface, or a value whose method set has or lacks an exported method named
`StackTrace`. -/
inductive ErrorValue where
  | nilError
  | value (stackTrace : Option Method)
deriving DecidableEq, Repr

/-- The loop of Go `ExtractStacktrace` that converts the elements of the
returned slice: `pcs = append(pcs, uintptr(errStacktrace.Index(i).Uint()))`. -/
def collectPcs : List ElemValue → List Nat → Except GoPanic (List Nat)
  | [], pcs => .ok pcs
  | e :: rest, pcs =>
    match e.Uint with
    | .error p => .error p
    | .ok u => collectPcs rest (pcs ++ [uintptr u])

/-- Go `ExtractStacktrace`, with the symbol table and the source reader as
parameters.  The result is `.error` when the call panics, `.ok none` when it
returns `nil`, and `.ok (some s)` when it returns a pointer to `s`. -/
def ExtractStacktrace (symtab : List Nat → List RuntimeFrame) (reader : SourceReader)
    (err : ErrorValue) : Except GoPanic (Option Stacktrace) :=
  match err with
  | .nilError => .error .methodByNameOnZeroValue
  | .value none => .ok none
  | .value (some methodStackTrace) =>
    if 0 < (if methodStackTrace.isVariadic then methodStackTrace.numIn - 1
            else methodStackTrace.numIn) then
      .error .callWithTooFewArguments
    else
      match methodStackTrace.results with
      | [] => .error .indexOutOfRange
      | .nonSlice :: _ => .ok none
      | .slice elems :: _ =>
        match collectPcs elems [] with
        | .error p => .error p
        | .ok pcs =>
          let frames := extractFrames symtab pcs
          let frames := filterFrames frames
          let frames := contextifyFrames reader frames
          .ok (some { Frames := frames })

/-! ## Exception writer -/

/-- The fields of Go `Event` that `writerAdapter.Write` sets; the type of
levels is a parameter. -/
structure Event (L : Type) where
  Level : L
  Message : GoString
deriving DecidableEq, Repr

/-- Go `(*writerAdapter).Write`.  The underlying `io.Writer` is a state `w` with
its `Write` method `wWrite`, which returns a count, an error (`none` for `nil`)
and the next state; the hub is a state `hub` with its `CaptureEvent` method;
`LevelError` is the package constant of that name.  Both calls are taken to
return. -/
def writerAdapter_Write {W H L : Type} (wWrite : W → GoString → (Int × Option GoString) × W)
    (CaptureEvent : H → Event L → H) (LevelError : L) (w : W) (hub : H) (p : GoString) :
    (Int × Option GoString) × W × H :=
  let w := (wWrite w p).2
  let hub := CaptureEvent hub { Level := LevelError, Message := p }
  (((p.length : Int), none), w, hub)

/-! ## Sample inputs -/

/-- An 11-line source window. -/
def sampleLines : List GoString :=
  [utf8 "line 1", utf8 "line 2", utf8 "line 3", utf8 "line 4", utf8 "line 5", utf8 "line 6",
   utf8 "line 7", utf8 "line 8", utf8 "line 9", utf8 "line 10", utf8 "line 11"]

/-- A reader that knows one file, `/app/main.go`, and reports every other path
as not found. -/
def sampleReader : SourceReader := fun filename _ _ =>
  if filename = utf8 "/app/main.go" then (some sampleLines, 5) else (none, 0)

/-- A reader that knows one file, `/app/main.go`, reports every other path as
not found, and reports a target line below 1 as not found. -/
def lineCheckedReader : SourceReader := fun filename line _ =>
  if filename = utf8 "/app/main.go" ∧ 1 ≤ line then (some sampleLines, 5) else (none, 0)

/-- A second 11-line source window, of the lines that follow `sampleLines`. -/
def sampleLinesNext : List GoString :=
  [utf8 "line 12", utf8 "line 13", utf8 "line 14", utf8 "line 15", utf8 "line 16",
   utf8 "line 17", utf8 "line 18", utf8 "line 19", utf8 "line 20", utf8 "line 21",
   utf8 "line 22"]

/-- A reader of `/app/main.go` that returns `sampleLines` around line 6 and
`sampleLinesNext` around line 17. -/
def twoWindowReader : SourceReader := fun filename line _ =>
  if filename = utf8 "/app/main.go" ∧ line = 6 then (some sampleLines, 5)
  else if filename = utf8 "/app/main.go" ∧ line = 17 then (some sampleLinesNext, 5)
  else (none, 0)

/-- A growth policy that doubles the capacity. -/
def doubling (oldcap _newlen : Nat) : Nat := 2 * oldcap

/-- A heap with one backing array of five empty strings. -/
def sampleHeap : Heap := [[[], [], [], [], []]]

/-- A zero-length slice over the array of `sampleHeap`, with capacity 5. -/
def sampleShared : Slice := { array := 0, off := 0, len := 0, cap := 5 }

/-- A stored frame for line 6 of `/app/main.go` whose PreContext is
`sampleShared`. -/
def sharedFrameA : FrameMem :=
  { fields := NewFrame ⟨utf8 "main.run", utf8 "/app/main.go", 6⟩
    PreContext := sampleShared
    PostContext := Slice.nil }

/-- A stored frame for line 17 of `/app/main.go` whose PreContext is the same
slice `sampleShared`. -/
def sharedFrameB : FrameMem :=
  { fields := NewFrame ⟨utf8 "main.main", utf8 "/app/main.go", 17⟩
    PreContext := sampleShared
    PostContext := Slice.nil }

/-- The frame built for a call at line 6 of `/app/main.go`. -/
def sampleFrame : Frame := NewFrame ⟨utf8 "main.run", utf8 "/app/main.go", 6⟩

/-! ## Stack extractor: order and length -/

/-- On an iterator with pending entries `r :: rest`, the loop needs no more
than `rest.length + 1` iterations and prepends the built frames in reverse. -/
theorem extractFramesLoop_cons (r : RuntimeFrame) (rest : List RuntimeFrame) :
    ∀ (fuel : Nat) (frames : List Frame), rest.length < fuel →
      extractFramesLoop fuel { pending := r :: rest } frames
        = some (((r :: rest).map NewFrame).reverse ++ frames) := by
  induction rest generalizing r with
  | nil =>
    intro fuel frames hfuel
    obtain ⟨n, rfl⟩ : ∃ n, fuel = n + 1 := ⟨fuel - 1, by simp at hfuel; omega⟩
    simp [extractFramesLoop, runtime_Frames.Next]
  | cons r2 rest ih =>
    intro fuel frames hfuel
    obtain ⟨n, rfl⟩ : ∃ n, fuel = n + 1 := ⟨fuel - 1, by simp at hfuel; omega⟩
    have hn : rest.length < n := by simp at hfuel; omega
    simp [extractFramesLoop, runtime_Frames.Next, ih r2 n _ hn]

/-- With one iteration more than there are pending entries the loop always
breaks: the embedding of `extractFrames` never runs out of fuel. -/
theorem extractFramesLoop_pending (ci : runtime_Frames) (frames : List Frame) :
    (extractFramesLoop (ci.pending.length + 1) ci frames).isSome = true := by
  obtain ⟨pending⟩ := ci
  cases pending with
  | nil => simp [extractFramesLoop, runtime_Frames.Next]
  | cons r rest => rw [extractFramesLoop_cons r rest _ _ (by simp only [List.length_cons]; omega)]; rfl

/-- C1: for every non-empty sequence of call-stack entries r1..rk that the
runtime iterator yields for the given addresses (innermost first), the loop of
`extractFrames` terminates and `extractFrames` returns exactly k frames, namely
`NewFrame rk, ..., NewFrame r1`: the reverse of the iteration order. -/
theorem extractFrames_reverse_order (symtab : List Nat → List RuntimeFrame) (pcs : List Nat)
    (hne : symtab pcs ≠ []) :
    extractFramesLoop ((symtab pcs).length + 1) (runtime_CallersFrames symtab pcs) []
        = some ((symtab pcs).reverse.map NewFrame)
      ∧ extractFrames symtab pcs = (symtab pcs).reverse.map NewFrame
      ∧ (extractFrames symtab pcs).length = (symtab pcs).length := by
  have hloop : extractFramesLoop ((symtab pcs).length + 1) (runtime_CallersFrames symtab pcs) []
      = some ((symtab pcs).reverse.map NewFrame) := by
    unfold runtime_CallersFrames
    cases hs : symtab pcs with
    | nil => exact absurd hs hne
    | cons r rest =>
      rw [extractFramesLoop_cons r rest _ _ (by simp only [List.length_cons]; omega)]
      simp [List.map_reverse]
  have hex : extractFrames symtab pcs = (symtab pcs).reverse.map NewFrame := by
    unfold extractFrames
    simp only []
    have : (runtime_CallersFrames symtab pcs).pending = symtab pcs := rfl
    rw [this, hloop]; rfl
  exact ⟨hloop, hex, by rw [hex]; simp⟩

/-- Witness for C1: a two-entry stack comes back outermost first. -/
theorem extractFrames_reverse_order_witness :
    extractFrames
        (fun _ => [⟨utf8 "main.inner", utf8 "/app/main.go", 12⟩,
                   ⟨utf8 "main.main", utf8 "/app/main.go", 30⟩]) [4198400, 4198500]
      = [NewFrame ⟨utf8 "main.main", utf8 "/app/main.go", 30⟩,
         NewFrame ⟨utf8 "main.inner", utf8 "/app/main.go", 12⟩] :=
  (extractFrames_reverse_order
    (fun _ => [⟨utf8 "main.inner", utf8 "/app/main.go", 12⟩,
               ⟨utf8 "main.main", utf8 "/app/main.go", 30⟩]) [4198400, 4198500]
    (by simp)).2.1

/-! ## Frame filter -/

/-- The loop of `filterFrames` appends the kept frames to its accumulator. -/
theorem filterFrames_foldl (frames acc : List Frame) :
    frames.foldl
        (fun filteredFrames frame =>
          if frame.Module = utf8 "runtime" ∨ frame.Module = utf8 "testing" then filteredFrames
          else filteredFrames ++ [frame])
        acc
      = acc ++ frames.filter
          (fun f => decide (f.Module ≠ utf8 "runtime" ∧ f.Module ≠ utf8 "testing")) := by
  induction frames generalizing acc with
  | nil => simp
  | cons f rest ih =>
    rw [List.foldl_cons, ih]
    by_cases h : f.Module = utf8 "runtime" ∨ f.Module = utf8 "testing"
    · have h2 : ¬ (f.Module ≠ utf8 "runtime" ∧ f.Module ≠ utf8 "testing") := by tauto
      simp [h, List.filter_cons, h2]
    · have h2 : f.Module ≠ utf8 "runtime" ∧ f.Module ≠ utf8 "testing" := by tauto
      simp [h, List.filter_cons, h2]

theorem filterFrames_filter (frames : List Frame) :
    filterFrames frames
      = frames.filter
          (fun f => decide (f.Module ≠ utf8 "runtime" ∧ f.Module ≠ utf8 "testing")) := by
  unfold filterFrames
  rw [filterFrames_foldl]; simp

/-- C2: `filterFrames` returns exactly the frames whose Module is neither
"runtime" nor "testing", unchanged and in their original relative order; the
output is a sublist of the input and never longer than it. -/
theorem filterFrames_eq_filter (frames : List Frame) :
    filterFrames frames
        = frames.filter (fun f => decide (f.Module ≠ utf8 "runtime" ∧ f.Module ≠ utf8 "testing"))
      ∧ (filterFrames frames).Sublist frames
      ∧ (filterFrames frames).length ≤ frames.length := by
  refine ⟨filterFrames_filter frames, ?_, ?_⟩
  · rw [filterFrames_filter]; exact List.filter_sublist _
  · rw [filterFrames_filter]; exact List.length_filter_le _ _

/-! ## Context enricher -/

theorem contextifyLine_AbsPath (initial : Int) (frame : Frame) (i : Nat) (line : GoString) :
    (contextifyLine initial frame i line).AbsPath = frame.AbsPath
      ∧ (contextifyLine initial frame i line).Lineno = frame.Lineno := by
  unfold contextifyLine
  split_ifs <;> simp

theorem contextifyLines_AbsPath (initial : Int) (lines : List GoString) :
    ∀ (i : Nat) (frame : Frame),
      (contextifyLines initial i lines frame).AbsPath = frame.AbsPath
        ∧ (contextifyLines initial i lines frame).Lineno = frame.Lineno := by
  induction lines with
  | nil => intro i frame; simp [contextifyLines]
  | cons line rest ih =>
    intro i frame
    simp only [contextifyLines]
    rw [(ih (i + 1) _).1, (ih (i + 1) _).2]
    exact contextifyLine_AbsPath initial frame i line

theorem contextifyFrames_foldl (reader : SourceReader) (frames acc : List Frame) :
    frames.foldl
        (fun contextifiedFrames frame =>
          match reader frame.AbsPath frame.Lineno contextLines with
          | (none, _) => contextifiedFrames
          | (some lines, initial) =>
            contextifiedFrames ++ [contextifyLines initial 0 lines frame])
        acc
      = acc ++ (frames.filter (windowFound reader)).map (contextified reader) := by
  induction frames generalizing acc with
  | nil => simp
  | cons f rest ih =>
    rw [List.foldl_cons, ih]
    have hc : contextLines = 5 := rfl
    rcases hr : reader f.AbsPath f.Lineno 5 with ⟨_ | lines, initial⟩
    · simp [hc, hr, List.filter_cons, windowFound]
    · simp [hc, hr, List.filter_cons, windowFound, contextified]

theorem contextifyFrames_eq (reader : SourceReader) (frames : List Frame) :
    contextifyFrames reader frames
      = (frames.filter (windowFound reader)).map (contextified reader) := by
  unfold contextifyFrames
  rw [contextifyFrames_foldl]; simp

/-- C3: `contextifyFrames` keeps a frame exactly when the reader returns a
window (non-nil lines) for (AbsPath, Lineno, 5): the output is the enrichment
of the frames with a window, in their original order; every output frame has a
window, so a frame reported not found is absent; the survivors, read by
(AbsPath, Lineno), are a sublist of the input; and the output is never longer
than the input. -/
theorem contextifyFrames_keeps_iff_window (reader : SourceReader) (frames : List Frame) :
    contextifyFrames reader frames
        = (frames.filter (fun f => (reader f.AbsPath f.Lineno 5).1.isSome)).map
            (contextified reader)
      ∧ (∀ out ∈ contextifyFrames reader frames,
          (reader out.AbsPath out.Lineno 5).1 ≠ none)
      ∧ ((contextifyFrames reader frames).map (fun f => (f.AbsPath, f.Lineno))).Sublist
          (frames.map (fun f => (f.AbsPath, f.Lineno)))
      ∧ (contextifyFrames reader frames).length
          = (frames.filter (fun f => (reader f.AbsPath f.Lineno 5).1.isSome)).length
      ∧ (contextifyFrames reader frames).length ≤ frames.length := by
  have hkey : ∀ f : Frame,
      ((contextified reader f).AbsPath, (contextified reader f).Lineno)
        = (f.AbsPath, f.Lineno) := by
    intro f
    unfold contextified
    rw [(contextifyLines_AbsPath _ _ 0 f).1, (contextifyLines_AbsPath _ _ 0 f).2]
  have heq := contextifyFrames_eq reader frames
  have hw : windowFound reader = fun f => (reader f.AbsPath f.Lineno 5).1.isSome := rfl
  rw [hw] at heq
  refine ⟨heq, ?_, ?_, ?_, ?_⟩
  · intro out hout
    rw [heq, List.mem_map] at hout
    obtain ⟨f, hf, rfl⟩ := hout
    have hfound := (List.mem_filter.mp hf).2
    have h1 := congrArg Prod.fst (hkey f)
    have h2 := congrArg Prod.snd (hkey f)
    simp only at h1 h2
    rw [h1, h2]
    intro hnone
    rw [hnone] at hfound
    simp at hfound
  · rw [heq, List.map_map]
    have : (fun f : Frame => (f.AbsPath, f.Lineno)) ∘ contextified reader
        = fun f : Frame => (f.AbsPath, f.Lineno) := funext hkey
    rw [this]
    exact (List.filter_sublist _).map _
  · rw [heq]; simp
  · rw [heq]; simp only [List.length_map]; exact List.length_filter_le _ _

theorem contextifyLines_after (initial : Int) (lines : List GoString) :
    ∀ (i : Nat) (frame : Frame), initial < (i : Int) →
      contextifyLines initial i lines frame
        = { frame with PostContext := frame.PostContext ++ lines } := by
  induction lines with
  | nil => intro i frame _; simp [contextifyLines]
  | cons line rest ih =>
    intro i frame hi
    have h1 : ¬ ((i : Int) < initial) := by omega
    have h2 : ¬ ((i : Int) = initial) := by omega
    simp only [contextifyLines]
    rw [ih (i + 1) _ (by push_cast; omega)]
    simp [contextifyLine, h1, h2]

theorem contextifyLines_split (initial : Int) (lines : List GoString) :
    ∀ (i k : Nat) (frame : Frame), initial = (i : Int) + (k : Int) → (hk : k < lines.length) →
      contextifyLines initial i lines frame
        = { frame with
            PreContext := frame.PreContext ++ lines.take k
            ContextLine := lines.get ⟨k, hk⟩
            PostContext := frame.PostContext ++ lines.drop (k + 1) } := by
  induction lines with
  | nil => intro i k frame _ hk; simp at hk
  | cons line rest ih =>
    intro i k frame hik hk
    simp only [contextifyLines]
    cases k with
    | zero =>
      have h1 : ¬ ((i : Int) < initial) := by omega
      have h2 : (i : Int) = initial := by omega
      rw [contextifyLines_after initial rest (i + 1) _ (by push_cast; omega)]
      simp [contextifyLine, h2]
    | succ k =>
      have h1 : (i : Int) < initial := by omega
      have hk2 : k < rest.length := by simpa using hk
      rw [ih (i + 1) k _ (by push_cast; omega) hk2]
      simp [contextifyLine, h1]

/-! ## Name deconstruction -/

theorem utf8_dot : utf8 "." = [0x2E] := by decide

theorem utf8_marker : utf8 "·" = [0xC2, 0xB7] := by decide

theorem singleton_infix_iff (c : UInt8) (s : GoString) : [c] <:+: s ↔ c ∈ s := by
  constructor
  · rintro ⟨a, b, rfl⟩; simp
  · intro h
    obtain ⟨a, b, rfl⟩ := List.append_of_mem h
    exact ⟨a, b, by simp⟩

theorem strings_LastIndex_absent (c : UInt8) (s : GoString) (h : c ∉ s) :
    strings_LastIndex s [c] = -1 := by
  induction s with
  | nil => simp [strings_LastIndex]
  | cons x t ih =>
    have hx : c ≠ x := fun e => h (by simp [e])
    have ht : c ∉ t := fun e => h (by simp [e])
    simp [strings_LastIndex, ih ht, hx]

theorem strings_LastIndex_last (c : UInt8) (m part : GoString) (h : c ∉ part) :
    strings_LastIndex (m ++ c :: part) [c] = (m.length : Int) := by
  induction m with
  | nil => simp [strings_LastIndex, strings_LastIndex_absent c part h]
  | cons x t ih =>
    have hne : (t.length : Int) ≠ -1 := by omega
    have hstep : strings_LastIndex (x :: (t ++ c :: part)) [c]
        = if strings_LastIndex (t ++ c :: part) [c] ≠ -1
            then strings_LastIndex (t ++ c :: part) [c] + 1
          else if [c] <+: x :: (t ++ c :: part) then 0 else -1 := rfl
    rw [List.cons_append, hstep, ih]
    simp [hne]

theorem exists_last_occurrence (c : UInt8) (s : GoString) (h : c ∈ s) :
    ∃ m part, s = m ++ c :: part ∧ c ∉ part := by
  induction s with
  | nil => simp at h
  | cons x t ih =>
    by_cases ht : c ∈ t
    · obtain ⟨m, part, rfl, hp⟩ := ih ht
      exact ⟨x :: m, part, rfl, hp⟩
    · have hx : c = x := by simpa [ht] using h
      exact ⟨[], t, by simp [hx], ht⟩

/-- The result of `deconstructFunctionName` on a name split at its last `.`. -/
theorem deconstructFunctionName_of_split (m part : GoString) (h : (0x2E : UInt8) ∉ part) :
    deconstructFunctionName (m ++ 0x2E :: part)
      = (m, strings_Replace part (utf8 "·") (utf8 ".")) := by
  have hidx := strings_LastIndex_last 0x2E m part h
  have hne : (m.length : Int) ≠ -1 := by omega
  unfold deconstructFunctionName
  simp only [utf8_dot, hidx]
  have h1 : ((m.length : Int) + 1).toNat = m.length + 1 := by omega
  simp [hne, h1]

/-- The result of `deconstructFunctionName` on a name without `.`. -/
theorem deconstructFunctionName_of_no_dot (name : GoString) (h : (0x2E : UInt8) ∉ name) :
    deconstructFunctionName name = ([], []) := by
  unfold deconstructFunctionName
  simp [utf8_dot, strings_LastIndex_absent _ name h, strings_Replace, replaceScan]

/-- C5: for every name that contains at least one ".", `deconstructFunctionName`
splits at the last ".": there is a part without "." such that module ++ "." ++
part is the name, and the returned function is that part after marker
normalisation. -/
theorem deconstructFunctionName_splits_last_dot (name : GoString)
    (hdot : utf8 "." <:+: name) :
    ∃ part : GoString,
      (deconstructFunctionName name).1 ++ utf8 "." ++ part = name
        ∧ ¬ utf8 "." <:+: part
        ∧ (deconstructFunctionName name).2 = strings_Replace part (utf8 "·") (utf8 ".")
        ∧ (deconstructFunctionName name).1 = name.take (name.length - part.length - 1)
        ∧ part = name.drop ((deconstructFunctionName name).1.length + 1) := by
  rw [utf8_dot, singleton_infix_iff] at hdot
  obtain ⟨m, part, rfl, hp⟩ := exists_last_occurrence _ _ hdot
  refine ⟨part, ?_, ?_, ?_, ?_, ?_⟩
  · rw [deconstructFunctionName_of_split m part hp, utf8_dot]; simp
  · rw [utf8_dot, singleton_infix_iff]; exact hp
  · rw [deconstructFunctionName_of_split m part hp]
  · rw [deconstructFunctionName_of_split m part hp]
    have h1 : (m ++ 0x2E :: part).length - part.length - 1 = m.length := by
      simp only [List.length_append, List.length_cons]; omega
    rw [h1]; simp
  · rw [deconstructFunctionName_of_split m part hp]; simp

/-- Witness for C5: a package-qualified function name. -/
theorem deconstructFunctionName_splits_last_dot_witness :
    ∃ part : GoString,
      (deconstructFunctionName (utf8 "net/http.Serve")).1 ++ utf8 "." ++ part
          = utf8 "net/http.Serve"
        ∧ ¬ utf8 "." <:+: part
        ∧ (deconstructFunctionName (utf8 "net/http.Serve")).2
            = strings_Replace part (utf8 "·") (utf8 ".")
        ∧ (deconstructFunctionName (utf8 "net/http.Serve")).1
            = (utf8 "net/http.Serve").take ((utf8 "net/http.Serve").length - part.length - 1)
        ∧ part
            = (utf8 "net/http.Serve").drop
                ((deconstructFunctionName (utf8 "net/http.Serve")).1.length + 1) :=
  deconstructFunctionName_splits_last_dot (utf8 "net/http.Serve")
    ⟨utf8 "net/http", utf8 "Serve", by decide⟩

/-! ## Marker normalisation -/

theorem replaceScan_nil (old new : GoString) (k : Nat) : replaceScan old new k [] = [] := by
  cases k <;> rfl

theorem replaceScan_marker_hit (t : GoString) :
    replaceScan [0xC2, 0xB7] [0x2E] 0 (0xC2 :: 0xB7 :: t)
      = 0x2E :: replaceScan [0xC2, 0xB7] [0x2E] 0 t := by
  simp [replaceScan]

theorem replaceScan_marker_miss (c : UInt8) (t : GoString)
    (h : ¬ [0xC2, 0xB7] <+: c :: t) :
    replaceScan [0xC2, 0xB7] [0x2E] 0 (c :: t)
      = c :: replaceScan [0xC2, 0xB7] [0x2E] 0 t := by
  simp only [replaceScan, if_neg h]

theorem marker_prefix_iff (c : UInt8) (t : GoString) :
    [0xC2, 0xB7] <+: c :: t ↔ ∃ u, c = 0xC2 ∧ t = 0xB7 :: u := by
  constructor
  · rintro ⟨u, hu⟩
    simp only [List.cons_append, List.nil_append, List.cons.injEq] at hu
    exact ⟨u, hu.1.symm, hu.2.symm⟩
  · rintro ⟨u, rfl, rfl⟩
    exact ⟨u, rfl⟩

/-- The output of the scan starts with the second marker byte only if its input
does. -/
theorem replaceScan_head (t : GoString) (u : GoString)
    (h : replaceScan [0xC2, 0xB7] [0x2E] 0 t = 0xB7 :: u) : ∃ v, t = 0xB7 :: v := by
  cases t with
  | nil => simp [replaceScan] at h
  | cons c t =>
    by_cases hp : [0xC2, 0xB7] <+: c :: t
    · obtain ⟨w, rfl, rfl⟩ := (marker_prefix_iff c t).mp hp
      rw [replaceScan_marker_hit] at h
      simp only [List.cons.injEq] at h
      exact absurd h.1 (by decide)
    · rw [replaceScan_marker_miss c t hp] at h
      simp only [List.cons.injEq] at h
      exact ⟨t, by rw [h.1]⟩

/-- No marker is left in the output of the scan. -/
theorem replaceScan_no_marker (n : Nat) :
    ∀ s : GoString, s.length ≤ n → ¬ [0xC2, 0xB7] <:+: replaceScan [0xC2, 0xB7] [0x2E] 0 s := by
  induction n with
  | zero =>
    intro s hs
    have : s = [] := List.length_eq_zero.mp (by omega)
    subst this
    simp [replaceScan]
  | succ n ih =>
    intro s hs
    cases s with
    | nil => simp [replaceScan]
    | cons c t =>
      have ht : t.length ≤ n := by simp at hs; omega
      by_cases hp : [0xC2, 0xB7] <+: c :: t
      · obtain ⟨w, rfl, rfl⟩ := (marker_prefix_iff c t).mp hp
        have hw : w.length ≤ n := by simp at ht; omega
        rw [replaceScan_marker_hit, List.infix_cons_iff]
        rintro (h | h)
        · obtain ⟨v, hv, -⟩ := (marker_prefix_iff _ _).mp h
          exact absurd hv (by decide)
        · exact ih w hw h
      · rw [replaceScan_marker_miss c t hp, List.infix_cons_iff]
        rintro (h | h)
        · obtain ⟨v, hc, hv⟩ := (marker_prefix_iff _ _).mp h
          obtain ⟨v2, rfl⟩ := replaceScan_head t v hv
          exact hp ((marker_prefix_iff c _).mpr ⟨v2, hc, rfl⟩)
        · exact ih t ht h

theorem intercalate_cons_cons (sep p q : GoString) (ps : List GoString) :
    List.intercalate sep (p :: q :: ps) = p ++ sep ++ List.intercalate sep (q :: ps) := by
  simp [List.intercalate, List.intersperse]

theorem intercalate_singleton (sep p : GoString) : List.intercalate sep [p] = p := by
  simp [List.intercalate, List.intersperse]

theorem intercalate_cons_head (sep : GoString) (c : UInt8) (p : GoString)
    (ps : List GoString) :
    List.intercalate sep ((c :: p) :: ps) = c :: List.intercalate sep (p :: ps) := by
  cases ps with
  | nil => simp [intercalate_singleton]
  | cons q qs => simp [intercalate_cons_cons]

theorem intercalate_starts (sep p : GoString) (ps : List GoString) :
    p <+: List.intercalate sep (p :: ps) := by
  cases ps with
  | nil => rw [intercalate_singleton]
  | cons q qs => rw [intercalate_cons_cons, List.append_assoc]; exact List.prefix_append _ _

/-- The scan cuts its input at the markers and joins the pieces with ".". -/
theorem replaceScan_pieces (n : Nat) :
    ∀ s : GoString, s.length ≤ n →
      ∃ (p : GoString) (ps : List GoString),
        (∀ q ∈ p :: ps, ¬ [0xC2, 0xB7] <:+: q)
          ∧ s = List.intercalate [0xC2, 0xB7] (p :: ps)
          ∧ replaceScan [0xC2, 0xB7] [0x2E] 0 s = List.intercalate [0x2E] (p :: ps) := by
  induction n with
  | zero =>
    intro s hs
    have : s = [] := List.length_eq_zero.mp (by omega)
    subst this
    exact ⟨[], [], by simp, by simp [intercalate_singleton],
      by simp [intercalate_singleton, replaceScan]⟩
  | succ n ih =>
    intro s hs
    cases s with
    | nil =>
      exact ⟨[], [], by simp, by simp [intercalate_singleton],
        by simp [intercalate_singleton, replaceScan]⟩
    | cons c t =>
      have ht : t.length ≤ n := by simp at hs; omega
      by_cases hp : [0xC2, 0xB7] <+: c :: t
      · obtain ⟨w, rfl, rfl⟩ := (marker_prefix_iff c t).mp hp
        have hw : w.length ≤ n := by simp at ht; omega
        obtain ⟨p, ps, hno, hs2, hr⟩ := ih w hw
        refine ⟨[], p :: ps, ?_, ?_, ?_⟩
        · intro q hq
          rcases List.mem_cons.mp hq with rfl | hq
          · simp
          · exact hno q hq
        · rw [intercalate_cons_cons, ← hs2]; rfl
        · rw [intercalate_cons_cons, ← hr, replaceScan_marker_hit]; rfl
      · obtain ⟨p, ps, hno, hs2, hr⟩ := ih t ht
        refine ⟨c :: p, ps, ?_, ?_, ?_⟩
        · intro q hq
          rcases List.mem_cons.mp hq with rfl | hq
          · rw [List.infix_cons_iff]
            rintro (h | h)
            · obtain ⟨v, hc, hv⟩ := (marker_prefix_iff _ _).mp h
              obtain ⟨rest, hrest⟩ := intercalate_starts [0xC2, 0xB7] p ps
              apply hp
              refine (marker_prefix_iff c t).mpr ⟨v ++ rest, hc, ?_⟩
              rw [hs2, ← hrest, hv]; rfl
            · exact hno p (List.mem_cons_self _ _) h
          · exact hno q (List.mem_cons_of_mem _ hq)
        · rw [intercalate_cons_head, ← hs2]
        · rw [intercalate_cons_head, ← hr, replaceScan_marker_miss c t hp]

/-- C8: for every name, the function returned by `deconstructFunctionName`
contains no marker "·"; whenever the name is `m ++ "." ++ part` with no "." in
`part`, the part is cut at its markers into marker-free pieces and the returned
function is those same pieces joined by "." (every marker replaced, nothing else
changed); and "runtime/debug.*T·ptrmethod" yields module "runtime/debug" and
function "*T.ptrmethod". -/
theorem deconstructFunctionName_normalises_marker (name : GoString) :
    ¬ utf8 "·" <:+: (deconstructFunctionName name).2
      ∧ (∀ m part : GoString, name = m ++ utf8 "." ++ part → ¬ utf8 "." <:+: part →
          ∃ pieces : List GoString,
            (∀ q ∈ pieces, ¬ utf8 "·" <:+: q)
              ∧ part = List.intercalate (utf8 "·") pieces
              ∧ (deconstructFunctionName name).2 = List.intercalate (utf8 ".") pieces)
      ∧ deconstructFunctionName (utf8 "runtime/debug.*T·ptrmethod")
          = (utf8 "runtime/debug", utf8 "*T.ptrmethod") := by
  refine ⟨?_, ?_, by decide⟩
  · rw [utf8_marker]
    by_cases hdot : (0x2E : UInt8) ∈ name
    · obtain ⟨m, part, rfl, hp⟩ := exists_last_occurrence _ _ hdot
      rw [deconstructFunctionName_of_split m part hp, utf8_marker, utf8_dot]
      exact replaceScan_no_marker part.length part (le_refl _)
    · rw [deconstructFunctionName_of_no_dot name hdot]
      simp
  · intro m part hname hpart
    rw [utf8_dot, singleton_infix_iff] at hpart
    rw [utf8_dot] at hname
    have hname2 : name = m ++ 0x2E :: part := by rw [hname]; simp
    subst hname2
    rw [deconstructFunctionName_of_split m part hpart, utf8_marker, utf8_dot]
    obtain ⟨p, ps, hno, hs, hr⟩ := replaceScan_pieces part.length part (le_refl _)
    exact ⟨p :: ps, hno, hs, hr⟩

/-- Witness for C8: a pointer-receiver method name with two markers. -/
theorem deconstructFunctionName_normalises_marker_witness :
    ∃ pieces : List GoString,
      (∀ q ∈ pieces, ¬ utf8 "·" <:+: q)
        ∧ utf8 "*T·ptr·fm" = List.intercalate (utf8 "·") pieces
        ∧ (deconstructFunctionName (utf8 "runtime/debug.*T·ptr·fm")).2
            = List.intercalate (utf8 ".") pieces :=
  (deconstructFunctionName_normalises_marker (utf8 "runtime/debug.*T·ptr·fm")).2.1
    (utf8 "runtime/debug") (utf8 "*T·ptr·fm") (by decide) (by decide)

/-- C6 (counterexample): on "pkg/sub.(*T).Method" the code does not return
module "pkg/sub" and function "(*T).Method". -/
theorem deconstructFunctionName_method_not_package_split :
    deconstructFunctionName (utf8 "pkg/sub.(*T).Method")
      ≠ (utf8 "pkg/sub", utf8 "(*T).Method") := by
  decide

/-- C6 (amended): `deconstructFunctionName` applied to "pkg/sub.(*T).Method"
splits at the last "." and returns module "pkg/sub.(*T)" and function
"Method". -/
theorem deconstructFunctionName_method_example :
    deconstructFunctionName (utf8 "pkg/sub.(*T).Method")
      = (utf8 "pkg/sub.(*T)", utf8 "Method") := by
  decide

/-- C7 (evaluation at the failing input): the name "main" contains no ".", and
`deconstructFunctionName` returns an empty module and an empty function for
it, not the whole name; `NewFrame` then reports an empty Function. -/
theorem deconstructFunctionName_no_dot_drops_name :
    ¬ utf8 "." <:+: utf8 "main"
      ∧ deconstructFunctionName (utf8 "main") = ([], [])
      ∧ (deconstructFunctionName (utf8 "main")).2 ≠ utf8 "main"
      ∧ (NewFrame ⟨utf8 "main", utf8 "/app/main.go", 7⟩).Function = []
      ∧ (NewFrame ⟨utf8 "main", utf8 "/app/main.go", 7⟩).Module = [] := by
  decide

/-! ## In-app classification -/

theorem strings_Contains_iff (s substr : GoString) :
    strings_Contains s substr = true ↔ substr <:+: s := by
  induction s with
  | nil => simp [strings_Contains]
  | cons c t ih =>
    rw [List.infix_cons_iff, ← ih]
    simp [strings_Contains]

theorem NewFrame_Module (r : RuntimeFrame) :
    (NewFrame r).Module
      = if r.Function ≠ [] then (deconstructFunctionName r.Function).1 else [] := by
  by_cases h : r.Function = [] <;> simp [NewFrame, h]

theorem NewFrame_InApp (r : RuntimeFrame) :
    (NewFrame r).InApp = isInAppFrame (NewFrame r) := by
  by_cases h : r.Function = [] <;> simp [NewFrame, h, isInAppFrame]

/-- C9: `isInAppFrame` returns true when Module is "main", false when Module
contains "vendor" or "third_party", and true for every other Module; it depends
on the Module only; and `NewFrame` sets InApp to this value for the Module it
derived from the raw name. -/
theorem isInAppFrame_classification (frame : Frame) (r : RuntimeFrame) :
    (frame.Module = utf8 "main" → isInAppFrame frame = true)
      ∧ (utf8 "vendor" <:+: frame.Module ∨ utf8 "third_party" <:+: frame.Module →
          isInAppFrame frame = false)
      ∧ (¬ utf8 "vendor" <:+: frame.Module → ¬ utf8 "third_party" <:+: frame.Module →
          isInAppFrame frame = true)
      ∧ isInAppFrame frame = isInAppFrame { Module := frame.Module }
      ∧ (NewFrame r).InApp = isInAppFrame (NewFrame r)
      ∧ (NewFrame r).Module
          = (if r.Function ≠ [] then (deconstructFunctionName r.Function).1 else [])
      ∧ (NewFrame r).InApp
          = isInAppFrame
              { Module :=
                  if r.Function ≠ [] then (deconstructFunctionName r.Function).1 else [] } := by
  have hdep : ∀ f : Frame, isInAppFrame f = isInAppFrame { Module := f.Module } := by
    intro f; simp [isInAppFrame]
  refine ⟨?_, ?_, ?_, hdep frame, NewFrame_InApp r, NewFrame_Module r, ?_⟩
  · intro h; simp [isInAppFrame, h]
  · intro h
    have hmain : frame.Module ≠ utf8 "main" := by
      intro e
      rw [e] at h
      revert h
      decide
    have hc : strings_Contains frame.Module (utf8 "vendor") = true
        ∨ strings_Contains frame.Module (utf8 "third_party") = true := by
      rw [strings_Contains_iff, strings_Contains_iff]; exact h
    unfold isInAppFrame
    rw [if_neg hmain]
    rcases hc with hc | hc <;> simp [hc]
  · intro hv ht
    have hv2 : strings_Contains frame.Module (utf8 "vendor") = false := by
      rw [← Bool.not_eq_true, strings_Contains_iff]; exact hv
    have ht2 : strings_Contains frame.Module (utf8 "third_party") = false := by
      rw [← Bool.not_eq_true, strings_Contains_iff]; exact ht
    simp [isInAppFrame, hv2, ht2]
  · rw [NewFrame_InApp r, hdep (NewFrame r), NewFrame_Module r]

/-- Witness for C9: a vendored module is not in-app. -/
theorem isInAppFrame_classification_witness :
    isInAppFrame
        (NewFrame ⟨utf8 "github.com/acme/app/vendor/lib.Do", utf8 "/src/lib.go", 3⟩)
      = false :=
  (isInAppFrame_classification
      (NewFrame ⟨utf8 "github.com/acme/app/vendor/lib.Do", utf8 "/src/lib.go", 3⟩)
      RuntimeFrame.zero).2.1
    (Or.inl (by decide))

/-! ## Runtime and test-harness frames -/

/-- C10 (counterexample): the raw names "testing.(*T).Run" and
"testing.tRunner.func1" have the form "testing.<rest>", yet the frames built
for them have Modules "testing.(*T)" and "testing.tRunner" and are kept by
`filterFrames`. -/
theorem filterFrames_keeps_testing_method_and_closure :
    utf8 "testing.(*T).Run" = utf8 "testing." ++ utf8 "(*T).Run"
      ∧ utf8 "testing.tRunner.func1" = utf8 "testing." ++ utf8 "tRunner.func1"
      ∧ (NewFrame ⟨utf8 "testing.(*T).Run", utf8 "/go/src/testing/testing.go", 1750⟩).Module
          = utf8 "testing.(*T)"
      ∧ (NewFrame ⟨utf8 "testing.tRunner.func1", utf8 "/go/src/testing/testing.go", 1690⟩).Module
          = utf8 "testing.tRunner"
      ∧ filterFrames
          [NewFrame ⟨utf8 "testing.(*T).Run", utf8 "/go/src/testing/testing.go", 1750⟩,
           NewFrame ⟨utf8 "testing.tRunner.func1", utf8 "/go/src/testing/testing.go", 1690⟩]
        = [NewFrame ⟨utf8 "testing.(*T).Run", utf8 "/go/src/testing/testing.go", 1750⟩,
           NewFrame ⟨utf8 "testing.tRunner.func1", utf8 "/go/src/testing/testing.go", 1690⟩] := by
  decide

/-- C10 (amended): for every raw call-stack entry whose raw name is
"runtime.<rest>" or "testing.<rest>" with no "." in `<rest>`, the frame built
by `NewFrame` has Module "runtime" or "testing", is dropped by `filterFrames`
wherever it stands in the input, and occurs in no output of `filterFrames`. -/
theorem filterFrames_removes_plain_runtime_testing (r : RuntimeFrame) (rest : GoString)
    (hname : r.Function = utf8 "runtime." ++ rest ∨ r.Function = utf8 "testing." ++ rest)
    (hrest : ¬ utf8 "." <:+: rest) :
    ((NewFrame r).Module = utf8 "runtime" ∨ (NewFrame r).Module = utf8 "testing")
      ∧ (∀ before after : List Frame,
          filterFrames (before ++ NewFrame r :: after)
            = filterFrames before ++ filterFrames after)
      ∧ (∀ frames : List Frame, NewFrame r ∉ filterFrames frames) := by
  rw [utf8_dot, singleton_infix_iff] at hrest
  have hmod : (NewFrame r).Module = utf8 "runtime" ∨ (NewFrame r).Module = utf8 "testing" := by
    rw [NewFrame_Module]
    rcases hname with h | h
    · left
      have h2 : r.Function = utf8 "runtime" ++ 0x2E :: rest := by rw [h]; rfl
      have hne : r.Function ≠ [] := by rw [h2]; exact fun e => by cases e
      rw [if_pos hne, h2, deconstructFunctionName_of_split _ rest hrest]
    · right
      have h2 : r.Function = utf8 "testing" ++ 0x2E :: rest := by rw [h]; rfl
      have hne : r.Function ≠ [] := by rw [h2]; exact fun e => by cases e
      rw [if_pos hne, h2, deconstructFunctionName_of_split _ rest hrest]
  have hdrop : ¬ ((NewFrame r).Module ≠ utf8 "runtime" ∧ (NewFrame r).Module ≠ utf8 "testing") := by
    tauto
  refine ⟨hmod, ?_, ?_⟩
  · intro before after
    simp only [filterFrames_filter, List.filter_append, List.filter_cons]
    simp [hdrop]
  · intro frames hmem
    rw [filterFrames_filter frames, List.mem_filter] at hmem
    exact hdrop (by simpa using hmem.2)

/-- Witness for C10 (amended): "runtime.goexit" is dropped. -/
theorem filterFrames_removes_plain_runtime_testing_witness :
    filterFrames
        ([NewFrame ⟨utf8 "main.main", utf8 "/app/main.go", 30⟩]
          ++ NewFrame ⟨utf8 "runtime.goexit", utf8 "/go/src/runtime/asm.s", 1650⟩ :: [])
      = filterFrames [NewFrame ⟨utf8 "main.main", utf8 "/app/main.go", 30⟩]
          ++ filterFrames [] :=
  (filterFrames_removes_plain_runtime_testing
      ⟨utf8 "runtime.goexit", utf8 "/go/src/runtime/asm.s", 1650⟩ (utf8 "goexit")
      (Or.inl (by decide)) (by decide)).2.1
    [NewFrame ⟨utf8 "main.main", utf8 "/app/main.go", 30⟩] []

/-! ## File name and path of a frame -/

theorem utf8_slash : utf8 "/" = [0x2F] := by decide

theorem unknown_ne_nil : unknown ≠ [] := by decide

theorem extractFilenameFromPath_of_split (dir base : GoString) (h : (0x2F : UInt8) ∉ base) :
    extractFilenameFromPath (dir ++ 0x2F :: base) = base := by
  have hidx := strings_LastIndex_last 0x2F dir base h
  have h1 : ((dir.length : Int) + 1).toNat = dir.length + 1 := by omega
  unfold extractFilenameFromPath filepath_Split
  simp only [utf8_slash, hidx, h1]
  simp

theorem extractFilenameFromPath_of_no_slash (path : GoString) (h : (0x2F : UInt8) ∉ path) :
    extractFilenameFromPath path = path := by
  unfold extractFilenameFromPath filepath_Split
  simp [utf8_slash, strings_LastIndex_absent _ path h]

theorem NewFrame_AbsPath (r : RuntimeFrame) :
    (NewFrame r).AbsPath = if r.File = [] then unknown else r.File := by
  by_cases h : r.Function = [] <;> simp [NewFrame, h]

theorem NewFrame_Filename (r : RuntimeFrame) :
    (NewFrame r).Filename
      = if r.File ≠ [] then extractFilenameFromPath r.File else unknown := by
  by_cases h : r.Function = [] <;> simp [NewFrame, h]

theorem NewFrame_Lineno (r : RuntimeFrame) : (NewFrame r).Lineno = r.Line := by
  by_cases h : r.Function = [] <;> simp [NewFrame, h]

theorem NewFrame_AbsPath_ne_nil (r : RuntimeFrame) : (NewFrame r).AbsPath ≠ [] := by
  rw [NewFrame_AbsPath]
  by_cases h : r.File = []
  · rw [if_pos h]; exact unknown_ne_nil
  · rw [if_neg h]; exact h

/-- The Filename of a built frame is empty exactly when the raw file path is
non-empty and ends in the separator. -/
theorem NewFrame_Filename_eq_nil_iff (r : RuntimeFrame) :
    (NewFrame r).Filename = [] ↔ r.File ≠ [] ∧ r.File.getLast? = some 0x2F := by
  rw [NewFrame_Filename]
  by_cases h : r.File = []
  · simp [h, unknown_ne_nil]
  · rw [if_pos h]
    by_cases hs : (0x2F : UInt8) ∈ r.File
    · obtain ⟨dir, base, hfile, hbase⟩ := exists_last_occurrence _ _ hs
      rw [hfile, extractFilenameFromPath_of_split dir base hbase]
      constructor
      · rintro rfl
        exact ⟨by simp, by simp⟩
      · rintro ⟨-, hlast⟩
        by_contra hne
        have hmem : (0x2F : UInt8) ∈ base := by
          have h2 : (dir ++ 0x2F :: base).getLast? = base.getLast? := by
            rw [List.getLast?_append, List.getLast?_cons]
            cases hb : base.getLast? with
            | none => exact absurd (List.getLast?_eq_none_iff.mp hb) hne
            | some x => simp
          rw [h2] at hlast
          exact List.mem_of_getLast?_eq_some hlast
        exact hbase hmem
    · rw [extractFilenameFromPath_of_no_slash _ hs]
      constructor
      · intro e; exact absurd e h
      · rintro ⟨-, hlast⟩
        exact absurd (List.mem_of_getLast?_eq_some hlast) hs

/-! ## Shared facts about the pipeline -/

theorem extractFrames_of_ne_nil (symtab : List Nat → List RuntimeFrame) (pcs : List Nat)
    (hne : symtab pcs ≠ []) :
    extractFrames symtab pcs = (symtab pcs).reverse.map NewFrame := by
  unfold extractFrames runtime_CallersFrames
  cases hs : symtab pcs with
  | nil => exact absurd hs hne
  | cons r rest =>
    simp only []
    rw [extractFramesLoop_cons r rest _ _ (by simp only [List.length_cons]; omega)]
    simp [List.map_reverse]

theorem extractFrames_of_nil (symtab : List Nat → List RuntimeFrame) (pcs : List Nat)
    (he : symtab pcs = []) :
    extractFrames symtab pcs = [NewFrame RuntimeFrame.zero] := by
  unfold extractFrames runtime_CallersFrames
  simp [he, extractFramesLoop, runtime_Frames.Next]

theorem extractFrames_mem (symtab : List Nat → List RuntimeFrame) (pcs : List Nat)
    (f : Frame) (hf : f ∈ extractFrames symtab pcs) :
    ∃ r, (r ∈ symtab pcs ∨ r = RuntimeFrame.zero) ∧ f = NewFrame r := by
  by_cases he : symtab pcs = []
  · rw [extractFrames_of_nil symtab pcs he] at hf
    exact ⟨RuntimeFrame.zero, Or.inr rfl, by simpa using hf⟩
  · rw [extractFrames_of_ne_nil symtab pcs he, List.mem_map] at hf
    obtain ⟨r, hr, rfl⟩ := hf
    exact ⟨r, Or.inl (List.mem_reverse.mp hr), rfl⟩

theorem sameOutsideContext_refl (a : Frame) : sameOutsideContext a a := by
  simp [sameOutsideContext]

theorem sameOutsideContext_trans (a b c : Frame) (h1 : sameOutsideContext a b)
    (h2 : sameOutsideContext b c) : sameOutsideContext a c := by
  unfold sameOutsideContext at *
  obtain ⟨a1, a2, a3, a4, a5, a6, a7, a8, a9, a10⟩ := h1
  obtain ⟨b1, b2, b3, b4, b5, b6, b7, b8, b9, b10⟩ := h2
  exact ⟨a1.trans b1, a2.trans b2, a3.trans b3, a4.trans b4, a5.trans b5, a6.trans b6,
    a7.trans b7, a8.trans b8, a9.trans b9, a10.trans b10⟩

theorem contextifyLine_same (initial : Int) (frame : Frame) (i : Nat) (line : GoString) :
    sameOutsideContext frame (contextifyLine initial frame i line) := by
  unfold contextifyLine sameOutsideContext
  split_ifs <;> simp

theorem contextifyLines_same (initial : Int) (lines : List GoString) :
    ∀ (i : Nat) (frame : Frame),
      sameOutsideContext frame (contextifyLines initial i lines frame) := by
  induction lines with
  | nil => intro i frame; simp [contextifyLines, sameOutsideContext_refl]
  | cons line rest ih =>
    intro i frame
    simp only [contextifyLines]
    exact sameOutsideContext_trans _ _ _ (contextifyLine_same initial frame i line)
      (ih (i + 1) _)

theorem contextified_same (reader : SourceReader) (frame : Frame) :
    sameOutsideContext frame (contextified reader frame) :=
  contextifyLines_same _ _ 0 frame

/-- Every frame that leaves filtering and enrichment comes from an input frame
with the same fields outside the context. -/
theorem pipeline_mem (reader : SourceReader) (frames : List Frame) (out : Frame)
    (hout : out ∈ contextifyFrames reader (filterFrames frames)) :
    ∃ f ∈ frames, sameOutsideContext f out := by
  rw [contextifyFrames_eq, List.mem_map] at hout
  obtain ⟨f, hf, rfl⟩ := hout
  have hf2 : f ∈ filterFrames frames := (List.mem_filter.mp hf).1
  rw [filterFrames_filter] at hf2
  exact ⟨f, (List.mem_filter.mp hf2).1, contextified_same reader f⟩

theorem pipeline_length_le (reader : SourceReader) (frames : List Frame) :
    (contextifyFrames reader (filterFrames frames)).length ≤ frames.length := by
  rw [contextifyFrames_eq, filterFrames_filter, List.length_map]
  exact le_trans (List.length_filter_le _ _) (List.length_filter_le _ _)

/-! ## Non-empty file name and path -/

/-- C11 (counterexample): for a raw entry whose file path ends in the
separator, `NewFrame` builds a frame with an empty Filename, and that frame
reaches the finished frame list. -/
theorem NewFrame_trailing_separator_empty_Filename :
    (NewFrame ⟨utf8 "main.run", utf8 "/app/", 6⟩).Filename = []
      ∧ (contextifyFrames (fun _ _ _ => (some sampleLines, 5))
            (filterFrames
              (extractFrames (fun _ => [⟨utf8 "main.run", utf8 "/app/", 6⟩]) [4198400]))).map
          (fun f => f.Filename)
        = [[]] := by
  decide

/-- C11 (amended): the frame built by `NewFrame` always has a non-empty AbsPath
(falling back to "unknown"); its Filename is empty exactly when the raw file
path is non-empty and ends in the separator "/" (an empty path falls back to
"unknown"); filtering and enrichment do not change these fields, so every frame
of a finished frame list has a non-empty AbsPath, and a non-empty Filename when
no resolved entry has a file path ending in "/". -/
theorem NewFrame_paths_nonempty (r : RuntimeFrame) (symtab : List Nat → List RuntimeFrame)
    (reader : SourceReader) (pcs : List Nat) :
    (NewFrame r).AbsPath ≠ []
      ∧ ((NewFrame r).Filename = [] ↔ r.File ≠ [] ∧ r.File.getLast? = some 0x2F)
      ∧ (∀ out ∈ contextifyFrames reader (filterFrames (extractFrames symtab pcs)),
          out.AbsPath ≠ []
            ∧ ((∀ e ∈ symtab pcs, e.File.getLast? ≠ some 0x2F) → out.Filename ≠ [])) := by
  refine ⟨NewFrame_AbsPath_ne_nil r, NewFrame_Filename_eq_nil_iff r, ?_⟩
  intro out hout
  obtain ⟨f, hf, hsame⟩ := pipeline_mem reader _ out hout
  obtain ⟨e, he, rfl⟩ := extractFrames_mem symtab pcs f hf
  obtain ⟨-, -, -, -, hname, hpath, -⟩ := hsame
  refine ⟨?_, ?_⟩
  · rw [← hpath]; exact NewFrame_AbsPath_ne_nil e
  · intro hall hnil
    rw [← hname, NewFrame_Filename_eq_nil_iff] at hnil
    rcases he with he | he
    · exact hall e he hnil.2
    · rw [he] at hnil
      exact hnil.1 rfl

/-- Witness for C11 (amended): the enriched frame of a two-entry stack whose
file paths do not end in "/" has a non-empty Filename. -/
theorem NewFrame_paths_nonempty_witness :
    (∀ e ∈ [(⟨utf8 "main.run", utf8 "/app/main.go", 6⟩ : RuntimeFrame),
            ⟨utf8 "main.main", utf8 "/app/main.go", 9⟩], e.File.getLast? ≠ some 0x2F)
      ∧ (contextified sampleReader sampleFrame).Filename ≠ [] :=
  ⟨by decide,
    ((NewFrame_paths_nonempty RuntimeFrame.zero
        (fun _ => [⟨utf8 "main.run", utf8 "/app/main.go", 6⟩,
                   ⟨utf8 "main.main", utf8 "/app/main.go", 9⟩])
        sampleReader [4198400, 4198500]).2.2
        (contextified sampleReader sampleFrame) (by decide)).2
      (by decide)⟩

/-- C12: `NewFrame` sets Lineno to the raw line; for an empty raw file path it
sets AbsPath and Filename to "unknown"; otherwise AbsPath is the raw file path
verbatim and Filename is the text after the final "/" of the path, the whole
path when it has no "/". -/
theorem NewFrame_path_fields (r : RuntimeFrame) :
    (NewFrame r).Lineno = r.Line
      ∧ (r.File = [] →
          (NewFrame r).AbsPath = utf8 "unknown" ∧ (NewFrame r).Filename = utf8 "unknown")
      ∧ (r.File ≠ [] → (NewFrame r).AbsPath = r.File)
      ∧ (∀ dir base : GoString, r.File = dir ++ utf8 "/" ++ base → ¬ utf8 "/" <:+: base →
          (NewFrame r).Filename = base)
      ∧ (r.File ≠ [] → ¬ utf8 "/" <:+: r.File → (NewFrame r).Filename = r.File) := by
  refine ⟨NewFrame_Lineno r, ?_, ?_, ?_, ?_⟩
  · intro h
    rw [NewFrame_AbsPath, NewFrame_Filename]
    simp [h, unknown]
  · intro h
    rw [NewFrame_AbsPath, if_neg h]
  · intro dir base hfile hbase
    rw [utf8_slash, singleton_infix_iff] at hbase
    have hfile2 : r.File = dir ++ 0x2F :: base := by rw [hfile, utf8_slash]; simp
    have hne : r.File ≠ [] := by rw [hfile2]; simp
    rw [NewFrame_Filename, if_pos hne, hfile2, extractFilenameFromPath_of_split dir base hbase]
  · intro hne hno
    rw [utf8_slash, singleton_infix_iff] at hno
    rw [NewFrame_Filename, if_pos hne, extractFilenameFromPath_of_no_slash _ hno]

/-- Witness for C12: the base name of "/app/main.go" is "main.go". -/
theorem NewFrame_path_fields_witness :
    (NewFrame ⟨utf8 "main.run", utf8 "/app/main.go", 6⟩).Filename = utf8 "main.go" :=
  (NewFrame_path_fields ⟨utf8 "main.run", utf8 "/app/main.go", 6⟩).2.2.2.1
    (utf8 "/app") (utf8 "main.go") (by decide) (by decide)

/-! ## Empty captures -/

/-- C13 (evaluation at the failing input): for an empty address sequence, for
which the iterator has no entries, the loop still runs its body once on the
zero entry, and `extractFrames` returns one frame, with "unknown" as Filename
and AbsPath, not an empty sequence. -/
theorem extractFrames_empty_returns_zero_frame :
    (runtime_CallersFrames (fun _ => []) []).Next.1 = RuntimeFrame.zero
      ∧ (runtime_CallersFrames (fun _ => []) []).Next.2.1 = false
      ∧ extractFrames (fun _ => []) [] = [NewFrame RuntimeFrame.zero]
      ∧ extractFrames (fun _ => []) [] ≠ []
      ∧ (extractFrames (fun _ => []) []).map (fun f => (f.Function, f.Filename, f.AbsPath))
          = [([], utf8 "unknown", utf8 "unknown")] := by
  decide

theorem collectPcs_unsigned (addrs : List Nat) :
    ∀ acc : List Nat,
      collectPcs (addrs.map ElemValue.unsigned) acc
        = .ok (acc ++ addrs.map (fun a => uintptr (a % 2 ^ 64))) := by
  induction addrs with
  | nil => intro acc; simp [collectPcs]
  | cons a rest ih =>
    intro acc
    simp [collectPcs, ElemValue.Uint, ih]

theorem ExtractStacktrace_well_shaped (symtab : List Nat → List RuntimeFrame)
    (reader : SourceReader) (addrs : List Nat) (more : List ReflectValue) :
    ExtractStacktrace symtab reader
        (.value (some ⟨0, false, .slice (addrs.map ElemValue.unsigned) :: more⟩))
      = .ok (some
          { Frames :=
              contextifyFrames reader
                (filterFrames
                  (extractFrames symtab (addrs.map (fun a => uintptr (a % 2 ^ 64))))) }) := by
  simp [ExtractStacktrace, collectPcs_unsigned]

/-- C14 (evaluation at the failing input): when the StackTrace method returns
an empty address sequence, `ExtractStacktrace` returns a Stacktrace, not nil,
for every symbol table and source reader; `NewStacktrace` returns nil when zero
addresses are captured. -/
theorem ExtractStacktrace_empty_returns_stacktrace (symtab : List Nat → List RuntimeFrame)
    (reader : SourceReader) :
    (∃ st : Stacktrace,
        ExtractStacktrace symtab reader (.value (some ⟨0, false, [.slice []]⟩)) = .ok (some st))
      ∧ ExtractStacktrace symtab reader (.value (some ⟨0, false, [.slice []]⟩)) ≠ .ok none
      ∧ ExtractStacktrace (fun _ => []) sampleReader (.value (some ⟨0, false, [.slice []]⟩))
          = .ok (some { Frames := [] })
      ∧ NewStacktrace symtab reader [] = none := by
  have h := ExtractStacktrace_well_shaped symtab reader [] []
  simp only [List.map_nil] at h
  refine ⟨⟨_, h⟩, ?_, rfl, rfl⟩
  rw [h]
  intro hc
  cases hc

/-! ## Foreign stack bridge -/

theorem extractFrames_length (symtab : List Nat → List RuntimeFrame) (pcs : List Nat) :
    (extractFrames symtab pcs).length = max (symtab pcs).length 1 := by
  by_cases he : symtab pcs = []
  · rw [extractFrames_of_nil symtab pcs he, he]; rfl
  · rw [extractFrames_of_ne_nil symtab pcs he]
    have hpos : 0 < (symtab pcs).length := List.length_pos.mpr he
    simp only [List.length_map, List.length_reverse]
    omega

/-- C15: for every error whose StackTrace method takes no argument and returns
a slice of N unsigned addresses (N ≥ 0), every symbol table that resolves a
sequence of addresses to at most as many call-stack entries, and every source
reader (a reader being bound by its contract to report a target line below 1
as not found), `ExtractStacktrace` returns a Stacktrace with at most N
frames. -/
theorem ExtractStacktrace_frames_le (symtab : List Nat → List RuntimeFrame)
    (reader : SourceReader) (addrs : List Nat) (more : List ReflectValue)
    (hres : ∀ pcs : List Nat, (symtab pcs).length ≤ pcs.length)
    (hreader : ReaderRejectsLinesBelowOne reader) :
    ∃ st : Stacktrace,
      ExtractStacktrace symtab reader
          (.value (some ⟨0, false, .slice (addrs.map ElemValue.unsigned) :: more⟩))
        = .ok (some st)
      ∧ st.Frames.length ≤ addrs.length := by
  refine ⟨_, ExtractStacktrace_well_shaped symtab reader addrs more, ?_⟩
  simp only []
  by_cases hN : 1 ≤ addrs.length
  · refine le_trans (pipeline_length_le reader _) ?_
    rw [extractFrames_length]
    have := hres (addrs.map (fun a => uintptr (a % 2 ^ 64)))
    simp only [List.length_map] at this
    omega
  · have hread : (reader (utf8 "unknown") 0 5).1 = none := hreader _ 0 5 (by decide)
    have hnil : addrs = [] := List.length_eq_zero.mp (by omega)
    subst hnil
    have hsym : symtab [] = [] := List.length_eq_zero.mp (by have := hres []; simpa using this)
    simp only [List.map_nil]
    rw [extractFrames_of_nil symtab [] hsym, contextifyFrames_eq]
    have hkeep : filterFrames [NewFrame RuntimeFrame.zero] = [NewFrame RuntimeFrame.zero] := by
      decide
    have hpath : (NewFrame RuntimeFrame.zero).AbsPath = utf8 "unknown" := by decide
    have hline : (NewFrame RuntimeFrame.zero).Lineno = 0 := by decide
    rw [hkeep]
    simp [List.filter_cons, windowFound, hpath, hline, hread]

/-- Witness for C15: two addresses, each resolved to one entry, read with a
reader that obeys the contract. -/
theorem ExtractStacktrace_frames_le_witness :
    ∃ st : Stacktrace,
      ExtractStacktrace (fun pcs => pcs.map (fun _ => ⟨utf8 "main.run", utf8 "/app/main.go", 6⟩))
          lineCheckedReader
          (.value (some ⟨0, false, .slice ([4198400, 4198500].map ElemValue.unsigned) :: []⟩))
        = .ok (some st)
      ∧ st.Frames.length ≤ [4198400, 4198500].length :=
  ExtractStacktrace_frames_le
    (fun pcs => pcs.map (fun _ => ⟨utf8 "main.run", utf8 "/app/main.go", 6⟩))
    lineCheckedReader [4198400, 4198500] [] (fun pcs => by simp)
    (fun filename line _ hline => by
      have h : ¬ (filename = utf8 "/app/main.go" ∧ 1 ≤ line) := fun hc => by omega
      simp [lineCheckedReader, h])

/-- C16 (evaluation at the failing input): when the StackTrace method returns a
slice whose elements are strings, or signed integers, `ExtractStacktrace`
panics in `reflect.Value.Uint` instead of returning nil; when it returns a value
that is not a slice, `ExtractStacktrace` returns nil. -/
theorem ExtractStacktrace_panics_on_other_elements (symtab : List Nat → List RuntimeFrame)
    (reader : SourceReader) :
    ExtractStacktrace symtab reader
        (.value (some ⟨0, false, [.slice [.string (utf8 "main.run"), .string (utf8 "main.main")]]⟩))
      = .error .uintOnOtherKind
    ∧ ExtractStacktrace symtab reader (.value (some ⟨0, false, [.slice [.signed 4198400]]⟩))
      = .error .uintOnOtherKind
    ∧ ExtractStacktrace symtab reader (.value (some ⟨0, false, [.nonSlice]⟩)) = .ok none :=
  ⟨rfl, rfl, rfl⟩

/-- C17: for every non-nil error value that has no method named StackTrace,
`ExtractStacktrace` returns nil, whatever the symbol table and the source
reader. -/
theorem ExtractStacktrace_without_method (symtab : List Nat → List RuntimeFrame)
    (reader : SourceReader) :
    ExtractStacktrace symtab reader (.value none) = .ok none := by
  simp [ExtractStacktrace]

/-! ## Native capture -/

/-- C18: `NewStacktrace` returns nil exactly when `runtime.Callers` reports zero
captured addresses; otherwise it returns a Stacktrace whose Frames are
`contextifyFrames (filterFrames (extractFrames pcs))` for the captured
addresses `pcs` (the stack after the skipped frame, cut at 100) and whose
FramesOmitted is [0, 0]. -/
theorem NewStacktrace_result (symtab : List Nat → List RuntimeFrame) (reader : SourceReader)
    (stack : List Nat) :
    (NewStacktrace symtab reader stack = none
        ↔ (runtime_Callers stack 1 (List.replicate 100 0)).1 = 0)
      ∧ ((runtime_Callers stack 1 (List.replicate 100 0)).1 ≠ 0 →
          NewStacktrace symtab reader stack
            = some
                { Frames :=
                    contextifyFrames reader
                      (filterFrames (extractFrames symtab ((stack.drop 1).take 100)))
                  FramesOmitted := (0, 0) })
      ∧ (runtime_Callers stack 1 (List.replicate 100 0)).2.take
            (runtime_Callers stack 1 (List.replicate 100 0)).1
          = (stack.drop 1).take 100 := by
  have htake : (runtime_Callers stack 1 (List.replicate 100 0)).2.take
      (runtime_Callers stack 1 (List.replicate 100 0)).1 = (stack.drop 1).take 100 := by
    simp [runtime_Callers]
  refine ⟨?_, ?_, htake⟩
  · unfold NewStacktrace
    simp only []
    by_cases h : (runtime_Callers stack 1 (List.replicate 100 0)).1 = 0 <;> simp [h]
  · intro h
    unfold NewStacktrace
    simp only []
    rw [if_neg h, htake]

/-- Witness for C18: a stack of three return addresses, the first being the
frame of `runtime.Callers` itself. -/
theorem NewStacktrace_result_witness :
    NewStacktrace (fun pcs => pcs.map (fun _ => ⟨utf8 "main.run", utf8 "/app/main.go", 6⟩))
        sampleReader [4198000, 4198400, 4198500]
      = some
          { Frames :=
              contextifyFrames sampleReader
                (filterFrames
                  (extractFrames
                    (fun pcs => pcs.map (fun _ => ⟨utf8 "main.run", utf8 "/app/main.go", 6⟩))
                    (([4198000, 4198400, 4198500] : List Nat).drop 1 |>.take 100)))
            FramesOmitted := (0, 0) } :=
  (NewStacktrace_result (fun pcs => pcs.map (fun _ => ⟨utf8 "main.run", utf8 "/app/main.go", 6⟩))
    sampleReader [4198000, 4198400, 4198500]).2.1 (by decide)

/-! ## Frames are immutable outside their context -/

/-- C19: `filterFrames` returns input frames unchanged (its output is a
sublist of its input), and every frame returned by `contextifyFrames` agrees
with the input frame it came from on Function, Symbol, Module, Package,
Filename, AbsPath, Lineno, Colno, InApp and Vars: the outputs correspond one
by one, in order, to the input frames that have a window, and only PreContext,
ContextLine and PostContext can differ; the same holds through both steps. -/
theorem filterFrames_contextifyFrames_keep_fields (reader : SourceReader)
    (frames : List Frame) :
    (filterFrames frames).Sublist frames
      ∧ List.Forall₂
          (fun f out =>
            out.Function = f.Function ∧ out.Symbol = f.Symbol ∧ out.Module = f.Module
              ∧ out.Package = f.Package ∧ out.Filename = f.Filename
              ∧ out.AbsPath = f.AbsPath ∧ out.Lineno = f.Lineno ∧ out.Colno = f.Colno
              ∧ out.InApp = f.InApp ∧ out.Vars = f.Vars)
          (frames.filter (fun f => (reader f.AbsPath f.Lineno 5).1.isSome))
          (contextifyFrames reader frames)
      ∧ (∀ out ∈ contextifyFrames reader (filterFrames frames),
          ∃ f ∈ frames, sameOutsideContext f out) := by
  refine ⟨?_, ?_, fun out hout => pipeline_mem reader frames out hout⟩
  · rw [filterFrames_filter]; exact List.filter_sublist _
  · rw [contextifyFrames_eq, List.forall₂_map_right_iff]
    apply List.forall₂_same.mpr
    intro f _
    obtain ⟨h1, h2, h3, h4, h5, h6, h7, h8, h9, h10⟩ := contextified_same reader f
    exact ⟨h1.symm, h2.symm, h3.symm, h4.symm, h5.symm, h6.symm, h7.symm, h8.symm,
      h9.symm, h10.symm⟩

/-! ## Exception writer -/

/-- C20: for every byte slice `p`, every underlying writer (whatever count and
error its `Write` returns) and every hub, `writerAdapter.Write` returns
`(len(p), nil)`, leaves the underlying writer in the state reached by one
`Write(p)`, and leaves the hub in the state reached by capturing one event
with level `LevelError` and message `string(p)`. -/
theorem writerAdapter_Write_result {W H L : Type}
    (wWrite : W → GoString → (Int × Option GoString) × W) (CaptureEvent : H → Event L → H)
    (LevelError : L) (w : W) (hub : H) (p : GoString) :
    (writerAdapter_Write wWrite CaptureEvent LevelError w hub p).1 = ((p.length : Int), none)
      ∧ (writerAdapter_Write wWrite CaptureEvent LevelError w hub p).2.1 = (wWrite w p).2
      ∧ (writerAdapter_Write wWrite CaptureEvent LevelError w hub p).2.2
          = CaptureEvent hub { Level := LevelError, Message := p }
      ∧ writerAdapter_Write
            (fun (log : List GoString) (q : GoString) =>
              (((0 : Int), some (utf8 "short write")), log ++ [q]))
            (fun (events : List (Event L)) e => events ++ [e]) LevelError [] [] p
          = (((p.length : Int), none), [p], [{ Level := LevelError, Message := p }]) := by
  exact ⟨rfl, rfl, rfl, rfl⟩

/-! ## Context enricher over slices with capacity -/

theorem go_append_avoids (grow : Nat → Nat → Nat) (H : Heap) (s : Slice) (x : GoString)
    (n m : Nat) (hm : m ≤ H.length) (hs : s.avoids n m) :
    H.length ≤ (go_append grow H s x).1.length
      ∧ (∀ k, n ≤ k → k < m → (go_append grow H s x).1.getD k [] = H.getD k [])
      ∧ (go_append grow H s x).2.avoids n m := by
  unfold go_append
  by_cases hc : s.len < s.cap
  · simp only [if_pos hc]
    refine ⟨by simp, ?_, ?_⟩
    · intro k hk1 hk2
      have hne : s.array ≠ k := by
        rcases hs hc with h | h <;> omega
      simp [List.getElem?_set_ne hne]
    · intro _
      exact hs hc
  · simp only [if_neg hc]
    refine ⟨by simp, ?_, ?_⟩
    · intro k _ hk2
      have hk : k < H.length := by omega
      simp [List.getElem?_append_left hk]
    · intro _
      right
      exact hm

theorem contextifyLineMem_avoids (grow : Nat → Nat → Nat) (initial : Int) (H : Heap)
    (frame : FrameMem) (i : Nat) (line : GoString) (n m : Nat) (hm : m ≤ H.length)
    (hpre : frame.PreContext.avoids n m) (hpost : frame.PostContext.avoids n m) :
    H.length ≤ (contextifyLineMem grow initial H frame i line).1.length
      ∧ (∀ k, n ≤ k → k < m →
          (contextifyLineMem grow initial H frame i line).1.getD k [] = H.getD k [])
      ∧ (contextifyLineMem grow initial H frame i line).2.PreContext.avoids n m
      ∧ (contextifyLineMem grow initial H frame i line).2.PostContext.avoids n m := by
  unfold contextifyLineMem
  by_cases h1 : (i : Int) < initial
  · simp only [if_pos h1]
    obtain ⟨a, b, c⟩ := go_append_avoids grow H frame.PreContext line n m hm hpre
    exact ⟨a, b, c, hpost⟩
  · by_cases h2 : (i : Int) = initial
    · simp only [if_neg h1, if_pos h2]
      exact ⟨le_refl _, by intros; trivial, hpre, hpost⟩
    · simp only [if_neg h1, if_neg h2]
      obtain ⟨a, b, c⟩ := go_append_avoids grow H frame.PostContext line n m hm hpost
      exact ⟨a, b, hpre, c⟩

theorem contextifyLinesMem_avoids (grow : Nat → Nat → Nat) (initial : Int) (n m : Nat)
    (lines : List GoString) :
    ∀ (i : Nat) (H : Heap) (frame : FrameMem), m ≤ H.length →
      frame.PreContext.avoids n m → frame.PostContext.avoids n m →
      H.length ≤ (contextifyLinesMem grow initial i lines H frame).1.length
        ∧ (∀ k, n ≤ k → k < m →
            (contextifyLinesMem grow initial i lines H frame).1.getD k [] = H.getD k []) := by
  induction lines with
  | nil =>
    intro i H frame _ _ _
    exact ⟨le_refl _, fun _ _ _ => rfl⟩
  | cons line rest ih =>
    intro i H frame hm hpre hpost
    obtain ⟨a, b, c, d⟩ := contextifyLineMem_avoids grow initial H frame i line n m hm hpre hpost
    obtain ⟨a2, b2⟩ := ih (i + 1) _ _ (le_trans hm a) c d
    simp only [contextifyLinesMem]
    refine ⟨le_trans a a2, ?_⟩
    intro k hk1 hk2
    rw [b2 k hk1 hk2, b k hk1 hk2]

/-- The arrays allocated before the call, from index `n` on, are not written
by the outer loop when the spare capacity of every frame lies below `n`. -/
theorem contextifyFrameMem_foldl_stable (grow : Nat → Nat → Nat) (reader : SourceReader)
    (n : Nat) (frames : List FrameMem) :
    ∀ state : Heap × List FrameMem, (∀ g ∈ frames, g.spareIn n) →
      state.1.length ≤ (frames.foldl (contextifyFrameMem grow reader) state).1.length
        ∧ (∀ k, n ≤ k → k < state.1.length →
            (frames.foldl (contextifyFrameMem grow reader) state).1.getD k []
              = state.1.getD k []) := by
  induction frames with
  | nil =>
    intro state _
    exact ⟨le_refl _, fun _ _ _ => rfl⟩
  | cons g rest ih =>
    intro state hall
    have hg := hall g (List.mem_cons_self _ _)
    have hrest : ∀ f ∈ rest, f.spareIn n := fun f hf => hall f (List.mem_cons_of_mem _ hf)
    have hstep : state.1.length ≤ (contextifyFrameMem grow reader state g).1.length
        ∧ (∀ k, n ≤ k → k < state.1.length →
            (contextifyFrameMem grow reader state g).1.getD k [] = state.1.getD k []) := by
      unfold contextifyFrameMem
      rcases hr : reader g.fields.AbsPath g.fields.Lineno contextLines with ⟨_ | lines, initial⟩
      · exact ⟨le_refl _, fun _ _ _ => rfl⟩
      · exact contextifyLinesMem_avoids grow initial n state.1.length lines 0 state.1 g
          (le_refl _) (fun h => Or.inl (hg.1 h)) (fun h => Or.inl (hg.2 h))
    obtain ⟨a, b⟩ := hstep
    obtain ⟨a2, b2⟩ := ih (contextifyFrameMem grow reader state g) hrest
    rw [List.foldl_cons]
    refine ⟨le_trans a a2, ?_⟩
    intro k hk1 hk2
    rw [b2 k hk1 (lt_of_lt_of_le hk2 a), b k hk1 hk2]

theorem Slice.apart_symm (s t : Slice) (h : s.apart t) : t.apart s := by
  unfold Slice.apart at *
  rcases h with h | h | h
  · exact Or.inr (Or.inl h)
  · exact Or.inl h
  · exact Or.inr (Or.inr (fun e => h e.symm))

theorem Slice.read_of_len_zero (H : Heap) (s : Slice) (h : s.len = 0) : s.read H = [] := by
  simp [Slice.read, h]

theorem Slice.read_length_of_owned (b : Nat) (H : Heap) (s : Slice) (hs : s.ownedFrom b H) :
    (s.read H).length = s.len := by
  rcases hs with ⟨h1, -⟩ | ⟨-, -, hoff, hlen, hcap⟩
  · simp [Slice.read, h1]
  · simp only [Slice.read, hoff, List.drop_zero, List.length_take]
    omega

/-- Reading a slice depends only on its own backing array. -/
theorem Slice.read_congr (H H2 : Heap) (s : Slice)
    (h : s.len = 0 ∨ H2.getD s.array [] = H.getD s.array []) : s.read H2 = s.read H := by
  rcases h with h | h
  · rw [Slice.read_of_len_zero H2 s h, Slice.read_of_len_zero H s h]
  · simp only [Slice.read, h]

theorem take_succ_set (l : List GoString) :
    ∀ (k : Nat) (x : GoString), k < l.length → (l.set k x).take (k + 1) = l.take k ++ [x] := by
  induction l with
  | nil => intro k x hk; simp at hk
  | cons a t ih =>
    intro k x hk
    cases k with
    | zero => simp
    | succ k =>
      have hk2 : k < t.length := by simpa using hk
      simp [ih k x hk2]

theorem Slice.read_mk (H : Heap) (a n c : Nat) :
    Slice.read H { array := a, off := 0, len := n, cap := c } = (H.getD a []).take n := by
  simp [Slice.read]

theorem Slice.read_with_len (H : Heap) (s : Slice) (n : Nat) (hoff : s.off = 0) :
    Slice.read H { s with len := n } = (H.getD s.array []).take n := by
  simp [Slice.read, hoff]

/-- An `append` to a slice that owns its array keeps it owned, adds the element
to what it reads, and leaves every owned slice apart from it as it was. -/
theorem go_append_owned (grow : Nat → Nat → Nat) (b : Nat) (H : Heap) (s : Slice)
    (x : GoString) (hb : b ≤ H.length) (hs : s.ownedFrom b H) :
    (go_append grow H s x).2.ownedFrom b (go_append grow H s x).1
      ∧ (go_append grow H s x).2.read (go_append grow H s x).1 = s.read H ++ [x]
      ∧ H.length ≤ (go_append grow H s x).1.length
      ∧ (∀ t : Slice, t.ownedFrom b H → s.apart t →
          t.ownedFrom b (go_append grow H s x).1
            ∧ t.read (go_append grow H s x).1 = t.read H
            ∧ (go_append grow H s x).2.apart t) := by
  have hlen := Slice.read_length_of_owned b H s hs
  unfold go_append
  by_cases hc : s.len < s.cap
  · simp only [if_pos hc]
    have hfresh : b ≤ s.array ∧ s.array < H.length ∧ s.off = 0 ∧ s.len ≤ s.cap
        ∧ s.cap ≤ (H.getD s.array []).length := by
      rcases hs with ⟨h1, h2⟩ | h
      · omega
      · exact h
    obtain ⟨h1, h2, h3, h4, h5⟩ := hfresh
    have hget : (H.set s.array ((H.getD s.array []).set (s.off + s.len) x)).getD s.array []
        = (H.getD s.array []).set (s.off + s.len) x := by
      simp [List.getElem?_set_self h2]
    refine ⟨?_, ?_, by simp, ?_⟩
    · right
      refine ⟨h1, by simpa using h2, h3, by simp only []; omega, ?_⟩
      simp only []
      rw [hget]
      simpa using h5
    · rw [Slice.read_with_len _ _ _ h3, hget, h3, Nat.zero_add]
      have hr : s.read H = (H.getD s.array []).take s.len := by
        simp [Slice.read, h3]
      rw [hr]
      exact take_succ_set _ _ _ (by omega)
    · intro t ht hap
      have hcases : (t.len = 0 ∧ t.cap = 0) ∨ s.array ≠ t.array := by
        rcases hap with h | h | h
        · omega
        · left
          rcases ht with ⟨a, -⟩ | ⟨-, -, -, a, -⟩
          · exact ⟨a, h⟩
          · exact ⟨by omega, h⟩
        · exact Or.inr h
      rcases hcases with ⟨a1, a2⟩ | hne
      · refine ⟨Or.inl ⟨a1, a2⟩, ?_, Or.inr (Or.inl a2)⟩
        exact Slice.read_congr _ _ t (Or.inl a1)
      · have hsame : (H.set s.array ((H.getD s.array []).set (s.off + s.len) x)).getD t.array []
            = H.getD t.array [] := by
          simp [List.getElem?_set_ne hne]
        refine ⟨?_, Slice.read_congr _ _ t (Or.inr hsame), Or.inr (Or.inr hne)⟩
        rcases ht with h | ⟨b1, b2, b3, b4, b5⟩
        · exact Or.inl h
        · right
          refine ⟨b1, by simpa using b2, b3, b4, ?_⟩
          rw [hsame]; exact b5
  · simp only [if_neg hc]
    have hget : (H ++ [s.read H ++ [x]
          ++ List.replicate (max (s.len + 1) (grow s.cap (s.len + 1)) - (s.len + 1)) []]).getD
          H.length []
        = s.read H ++ [x]
          ++ List.replicate (max (s.len + 1) (grow s.cap (s.len + 1)) - (s.len + 1)) [] := by
      simp
    refine ⟨?_, ?_, by simp, ?_⟩
    · right
      refine ⟨hb, by simp, rfl, le_max_left _ _, ?_⟩
      simp only []
      rw [hget]
      simp only [List.length_append, List.length_replicate, List.length_singleton, hlen]
      omega
    · rw [Slice.read_mk, hget]
      exact List.take_left' (by simp [hlen])
    · intro t ht _
      rcases ht with ⟨a1, a2⟩ | ⟨b1, b2, b3, b4, b5⟩
      · refine ⟨Or.inl ⟨a1, a2⟩, ?_, Or.inr (Or.inl a2)⟩
        exact Slice.read_congr _ _ t (Or.inl a1)
      · have hsame : (H ++ [s.read H ++ [x]
              ++ List.replicate (max (s.len + 1) (grow s.cap (s.len + 1)) - (s.len + 1)) []]).getD
              t.array []
            = H.getD t.array [] := by
          simp [List.getElem?_append_left b2]
        refine ⟨?_, Slice.read_congr _ _ t (Or.inr hsame), ?_⟩
        · right
          refine ⟨b1, by simp; omega, b3, b4, ?_⟩
          rw [hsame]; exact b5
        · right; right
          simp only []
          omega

/-- One iteration of the inner loop on a stored frame whose slices own their
arrays does to the frame's value what `contextifyLine` does. -/
theorem contextifyLineMem_sim (grow : Nat → Nat → Nat) (initial : Int) (b : Nat) (H : Heap)
    (frame : FrameMem) (i : Nat) (line : GoString) (hb : b ≤ H.length)
    (hpre : frame.PreContext.ownedFrom b H) (hpost : frame.PostContext.ownedFrom b H)
    (hap : frame.PreContext.apart frame.PostContext) :
    H.length ≤ (contextifyLineMem grow initial H frame i line).1.length
      ∧ (contextifyLineMem grow initial H frame i line).2.PreContext.ownedFrom b
          (contextifyLineMem grow initial H frame i line).1
      ∧ (contextifyLineMem grow initial H frame i line).2.PostContext.ownedFrom b
          (contextifyLineMem grow initial H frame i line).1
      ∧ (contextifyLineMem grow initial H frame i line).2.PreContext.apart
          (contextifyLineMem grow initial H frame i line).2.PostContext
      ∧ (contextifyLineMem grow initial H frame i line).2.value
            (contextifyLineMem grow initial H frame i line).1
          = contextifyLine initial (frame.value H) i line := by
  unfold contextifyLineMem
  by_cases h1 : (i : Int) < initial
  · simp only [if_pos h1]
    obtain ⟨o1, o2, o3, o4⟩ := go_append_owned grow b H frame.PreContext line hb hpre
    obtain ⟨p1, p2, p3⟩ := o4 frame.PostContext hpost hap
    refine ⟨o3, o1, p1, p3, ?_⟩
    simp [FrameMem.value, contextifyLine, h1, o2, p2]
  · by_cases h2 : (i : Int) = initial
    · simp only [if_neg h1, if_pos h2]
      refine ⟨le_refl _, hpre, hpost, hap, ?_⟩
      simp [FrameMem.value, contextifyLine, h2]
    · simp only [if_neg h1, if_neg h2]
      obtain ⟨o1, o2, o3, o4⟩ := go_append_owned grow b H frame.PostContext line hb hpost
      obtain ⟨p1, p2, p3⟩ := o4 frame.PreContext hpre (Slice.apart_symm _ _ hap)
      refine ⟨o3, p1, o1, Slice.apart_symm _ _ p3, ?_⟩
      simp [FrameMem.value, contextifyLine, h1, h2, o2, p2]

/-- The inner loop on a stored frame whose slices own their arrays does to the
frame's value what `contextifyLines` does, and leaves the slices owned. -/
theorem contextifyLinesMem_sim (grow : Nat → Nat → Nat) (initial : Int) (b : Nat)
    (lines : List GoString) :
    ∀ (i : Nat) (H : Heap) (frame : FrameMem), b ≤ H.length →
      frame.PreContext.ownedFrom b H → frame.PostContext.ownedFrom b H →
      frame.PreContext.apart frame.PostContext →
      (contextifyLinesMem grow initial i lines H frame).2.PreContext.ownedFrom b
          (contextifyLinesMem grow initial i lines H frame).1
        ∧ (contextifyLinesMem grow initial i lines H frame).2.PostContext.ownedFrom b
            (contextifyLinesMem grow initial i lines H frame).1
        ∧ (contextifyLinesMem grow initial i lines H frame).2.value
              (contextifyLinesMem grow initial i lines H frame).1
            = contextifyLines initial i lines (frame.value H) := by
  induction lines with
  | nil =>
    intro i H frame _ hpre hpost _
    exact ⟨hpre, hpost, rfl⟩
  | cons line rest ih =>
    intro i H frame hb hpre hpost hap
    obtain ⟨a, o1, o2, o3, o4⟩ :=
      contextifyLineMem_sim grow initial b H frame i line hb hpre hpost hap
    obtain ⟨q1, q2, q3⟩ := ih (i + 1) _ _ (le_trans hb a) o1 o2 o3
    simp only [contextifyLinesMem, contextifyLines]
    rw [← o4]
    exact ⟨q1, q2, q3⟩

theorem Slice.read_stable (n b : Nat) (H H2 : Heap) (s : Slice) (hn : n ≤ b)
    (hs : s.ownedFrom b H)
    (hst : ∀ k, n ≤ k → k < H.length → H2.getD k [] = H.getD k []) :
    s.read H2 = s.read H := by
  rcases hs with ⟨h1, -⟩ | ⟨h1, h2, -⟩
  · exact Slice.read_congr _ _ s (Or.inl h1)
  · exact Slice.read_congr _ _ s (Or.inr (hst s.array (by omega) h2))

theorem FrameMem.value_of_empty (H : Heap) (g : FrameMem)
    (hpre : g.PreContext.len = 0) (hpost : g.PostContext.len = 0) :
    g.value H = { g.fields with PreContext := [], PostContext := [] } := by
  simp [FrameMem.value, Slice.read_of_len_zero, hpre, hpost]

/-- The outer loop on stored frames: the frames it appends correspond, in
order, to the input frames with a window, and the frame appended for an input
frame whose context slices are empty without capacity reads, in the heap left
by the whole loop, as the enrichment of that input frame. -/
theorem contextifyFrameMem_foldl_values (grow : Nat → Nat → Nat) (reader : SourceReader)
    (n : Nat) (frames : List FrameMem) :
    ∀ state : Heap × List FrameMem, n ≤ state.1.length → (∀ g ∈ frames, g.spareIn n) →
      ∃ outs : List FrameMem,
        (frames.foldl (contextifyFrameMem grow reader) state).2 = state.2 ++ outs
          ∧ List.Forall₂
              (fun g out =>
                g.PreContext.len = 0 ∧ g.PreContext.cap = 0
                    ∧ g.PostContext.len = 0 ∧ g.PostContext.cap = 0 →
                  out.value (frames.foldl (contextifyFrameMem grow reader) state).1
                    = contextified reader { g.fields with PreContext := [], PostContext := [] })
              (frames.filter (windowFoundMem reader)) outs := by
  induction frames with
  | nil =>
    intro state _ _
    exact ⟨[], by simp, by simp⟩
  | cons g rest ih =>
    intro state hn hall
    have hg := hall g (List.mem_cons_self _ _)
    have hrest : ∀ f ∈ rest, f.spareIn n := fun f hf => hall f (List.mem_cons_of_mem _ hf)
    have hc : contextLines = 5 := rfl
    rw [List.foldl_cons]
    rcases hr : reader g.fields.AbsPath g.fields.Lineno 5 with ⟨_ | lines, initial⟩
    · have hstep : contextifyFrameMem grow reader state g = state := by
        simp [contextifyFrameMem, hc, hr]
      have hfound : windowFoundMem reader g = false := by simp [windowFoundMem, hr]
      rw [hstep, List.filter_cons, hfound]
      exact ih state hn hrest
    · have hstep : contextifyFrameMem grow reader state g
          = ((contextifyLinesMem grow initial 0 lines state.1 g).1,
              state.2 ++ [(contextifyLinesMem grow initial 0 lines state.1 g).2]) := by
        simp [contextifyFrameMem, hc, hr]
      have hfound : windowFoundMem reader g = true := by simp [windowFoundMem, hr]
      have hgrow := (contextifyLinesMem_avoids grow initial n state.1.length lines 0 state.1 g
        (le_refl _) (fun h => Or.inl (hg.1 h)) (fun h => Or.inl (hg.2 h))).1
      rw [hstep, List.filter_cons, hfound]
      simp only [if_true]
      obtain ⟨outs, ho1, ho2⟩ := ih
        ((contextifyLinesMem grow initial 0 lines state.1 g).1,
          state.2 ++ [(contextifyLinesMem grow initial 0 lines state.1 g).2])
        (le_trans hn hgrow) hrest
      refine ⟨(contextifyLinesMem grow initial 0 lines state.1 g).2 :: outs, ?_, ?_⟩
      · rw [ho1]; simp
      · refine List.Forall₂.cons ?_ ho2
        rintro ⟨z1, z2, z3, z4⟩
        obtain ⟨s1, s2, s3⟩ := contextifyLinesMem_sim grow initial state.1.length lines 0
          state.1 g (le_refl _) (Or.inl ⟨z1, z2⟩) (Or.inl ⟨z3, z4⟩) (Or.inl z2)
        have hst := (contextifyFrameMem_foldl_stable grow reader n rest
          ((contextifyLinesMem grow initial 0 lines state.1 g).1,
            state.2 ++ [(contextifyLinesMem grow initial 0 lines state.1 g).2]) hrest).2
        have hv : ∀ H2 : Heap,
            (∀ k, n ≤ k → k < (contextifyLinesMem grow initial 0 lines state.1 g).1.length →
              H2.getD k [] = (contextifyLinesMem grow initial 0 lines state.1 g).1.getD k []) →
            (contextifyLinesMem grow initial 0 lines state.1 g).2.value H2
              = (contextifyLinesMem grow initial 0 lines state.1 g).2.value
                  (contextifyLinesMem grow initial 0 lines state.1 g).1 := by
          intro H2 h2
          simp only [FrameMem.value]
          rw [Slice.read_stable n state.1.length _ H2 _ hn s1 h2,
            Slice.read_stable n state.1.length _ H2 _ hn s2 h2]
        rw [hv _ hst, s3, FrameMem.value_of_empty state.1 g z1 z3]
        simp [contextified, hr]

theorem forall₂_map_eq {α β γ : Type} (P : α → Prop) (f : β → γ) (h : α → γ) :
    ∀ (l : List α) (outs : List β),
      List.Forall₂ (fun g out => P g → f out = h g) l outs → (∀ g ∈ l, P g) →
      outs.map f = l.map h := by
  intro l outs hrel
  induction hrel with
  | nil => intro _; rfl
  | cons hab _ ih =>
    intro hall
    simp only [List.map_cons]
    rw [hab (hall _ (List.mem_cons_self _ _)),
      ih (fun g hg => hall g (List.mem_cons_of_mem _ hg))]

theorem forall₂_middle {α β : Type} (R : α → β → Prop) (a : α) (l2 : List α) :
    ∀ (l1 : List α) (outs : List β), List.Forall₂ R (l1 ++ a :: l2) outs →
      ∃ (o1 : List β) (o : β) (o2 : List β),
        outs = o1 ++ o :: o2 ∧ o1.length = l1.length ∧ R a o := by
  intro l1
  induction l1 with
  | nil =>
    intro outs hrel
    cases hrel with
    | cons hab hrest => exact ⟨[], _, _, rfl, rfl, hab⟩
  | cons x t ih =>
    intro outs hrel
    cases hrel with
    | cons hab hrest =>
      obtain ⟨o1, o, o2, h1, h2, h3⟩ := ih _ hrest
      exact ⟨_ :: o1, o, o2, by rw [h1]; rfl, by simp [h2], h3⟩

theorem FrameMem.ofFrame_spareIn (n : Nat) (frame : Frame) :
    (FrameMem.ofFrame frame).spareIn n := by
  constructor <;> intro h <;> simp [FrameMem.ofFrame, Slice.nil] at h

theorem contextifyFramesValues_eq (grow : Nat → Nat → Nat) (reader : SourceReader) (H : Heap)
    (frames : List FrameMem) (hvalid : ∀ g ∈ frames, g.spareIn H.length) :
    ∃ outs : List FrameMem,
      contextifyFramesValues grow reader H frames
          = outs.map (FrameMem.value (contextifyFramesMem grow reader H frames).1)
        ∧ List.Forall₂
            (fun g out =>
              g.PreContext.len = 0 ∧ g.PreContext.cap = 0
                  ∧ g.PostContext.len = 0 ∧ g.PostContext.cap = 0 →
                FrameMem.value (contextifyFramesMem grow reader H frames).1 out
                  = contextified reader { g.fields with PreContext := [], PostContext := [] })
            (frames.filter (windowFoundMem reader)) outs := by
  obtain ⟨outs, h1, h2⟩ :=
    contextifyFrameMem_foldl_values grow reader H.length frames (H, []) (le_refl _) hvalid
  refine ⟨outs, ?_, h2⟩
  unfold contextifyFramesValues contextifyFramesMem
  rw [h1]; rfl

/-- For frames whose context slices are `nil`, as `NewFrame` builds them, the
embedding over slice headers returns what the embedding over values returns,
whatever the heap and the growth of capacities. -/
theorem contextifyFramesMem_refines (grow : Nat → Nat → Nat) (reader : SourceReader)
    (H : Heap) (frames : List Frame)
    (hempty : ∀ f ∈ frames, f.PreContext = [] ∧ f.PostContext = []) :
    contextifyFramesValues grow reader H (frames.map FrameMem.ofFrame)
      = contextifyFrames reader frames := by
  obtain ⟨outs, h1, h2⟩ := contextifyFramesValues_eq grow reader H (frames.map FrameMem.ofFrame)
    (fun g hg => by
      obtain ⟨f, -, rfl⟩ := List.mem_map.mp hg
      exact FrameMem.ofFrame_spareIn _ f)
  rw [h1, forall₂_map_eq _ _ _ _ _ h2 (fun g hg => by
      obtain ⟨f, -, rfl⟩ := List.mem_map.mp (List.mem_filter.mp hg).1
      simp [FrameMem.ofFrame, Slice.nil]),
    contextifyFrames_eq, List.filter_map, List.map_map]
  have hw : windowFoundMem reader ∘ FrameMem.ofFrame = windowFound reader := rfl
  rw [hw]
  apply List.map_congr_left
  intro f hf
  obtain ⟨e1, e2⟩ := hempty f (List.mem_filter.mp hf).1
  have hf2 : ({ f with PreContext := [], PostContext := [] } : Frame) = f := by
    cases f
    simp only [Frame.mk.injEq] at *
    simp_all
  simp only [Function.comp, FrameMem.ofFrame]
  rw [hf2]

theorem NewFrame_context_empty (r : RuntimeFrame) :
    (NewFrame r).PreContext = [] ∧ (NewFrame r).PostContext = [] := by
  by_cases h : r.Function = [] <;> simp [NewFrame, h]

/-- In the capture pipeline the frames that reach `contextifyFrames` are built
by `NewFrame` and carry `nil` context slices, so for them the embedding over
values is exact. -/
theorem pipeline_refines (grow : Nat → Nat → Nat) (reader : SourceReader) (H : Heap)
    (symtab : List Nat → List RuntimeFrame) (pcs : List Nat) :
    contextifyFramesValues grow reader H
        ((filterFrames (extractFrames symtab pcs)).map FrameMem.ofFrame)
      = contextifyFrames reader (filterFrames (extractFrames symtab pcs)) := by
  apply contextifyFramesMem_refines
  intro f hf
  rw [filterFrames_filter] at hf
  obtain ⟨r, -, rfl⟩ := extractFrames_mem symtab pcs f (List.mem_filter.mp hf).1
  exact NewFrame_context_empty r

/-- Two frames that share a zero-length PreContext slice with spare capacity:
the second frame's lines overwrite the first frame's PreContext. -/
theorem contextifyFramesValues_shared_capacity :
    (contextifyFramesValues doubling twoWindowReader sampleHeap
        [sharedFrameA, sharedFrameB]).map (fun f => f.PreContext)
      = [sampleLinesNext.take 5, sampleLinesNext.take 5] := by
  decide

theorem contextified_window (reader : SourceReader) (frame : Frame) (lines : List GoString)
    (initial : Int) (hpre : frame.PreContext = []) (hpost : frame.PostContext = [])
    (hread : reader frame.AbsPath frame.Lineno 5 = (some lines, initial))
    (h0 : 0 ≤ initial) (hlt : initial < lines.length) :
    contextified reader frame
      = { frame with
          PreContext := lines.take initial.toNat
          ContextLine := lines.getD initial.toNat []
          PostContext := lines.drop (initial.toNat + 1) } := by
  have hk : initial.toNat < lines.length := by omega
  unfold contextified
  rw [hread]
  simp only [Option.getD_some]
  rw [contextifyLines_split initial lines 0 initial.toNat frame (by push_cast; omega) hk]
  simp [hpre, hpost, List.getElem?_eq_getElem hk]

/-- C4: a frame that enters `contextifyFrames` with empty context fields (its
PreContext and PostContext slices have no element and no capacity: `nil`, as
`NewFrame` leaves them), and for which the reader returns a window `lines` with
target index `initial`, `0 ≤ initial < len(lines)`, comes out, at its place
among the survivors and read after the call has returned, with PreContext the
lines before index `initial`, ContextLine the line at index `initial` and
PostContext the lines after it, all other fields unchanged; so PreContext ++
[ContextLine] ++ PostContext = lines, and an 11-line window with target index 5
gives 5 pre-context lines and 5 post-context lines.  The other frames of the
input are arbitrary: their slices may have spare capacity and share backing
arrays of the heap. -/
theorem contextifyFrames_window_split (grow : Nat → Nat → Nat) (reader : SourceReader)
    (H : Heap) (before after : List FrameMem) (frame : FrameMem) (lines : List GoString)
    (initial : Int)
    (hvalid : ∀ g ∈ before ++ frame :: after, g.spareIn H.length)
    (hpre : frame.PreContext.len = 0 ∧ frame.PreContext.cap = 0)
    (hpost : frame.PostContext.len = 0 ∧ frame.PostContext.cap = 0)
    (hread : reader frame.fields.AbsPath frame.fields.Lineno 5 = (some lines, initial))
    (h0 : 0 ≤ initial) (hlt : initial < lines.length) :
    ∃ (outsBefore : List Frame) (out : Frame) (outsAfter : List Frame),
      contextifyFramesValues grow reader H (before ++ frame :: after)
          = outsBefore ++ out :: outsAfter
        ∧ outsBefore.length = (before.filter (windowFoundMem reader)).length
        ∧ out = { frame.fields with
                  PreContext := lines.take initial.toNat
                  ContextLine := lines.getD initial.toNat []
                  PostContext := lines.drop (initial.toNat + 1) }
        ∧ lines[initial.toNat]? = some out.ContextLine
        ∧ out.PreContext ++ [out.ContextLine] ++ out.PostContext = lines
        ∧ (lines.length = 11 → initial = 5 →
            out.PreContext.length = 5 ∧ out.PostContext.length = 5) := by
  have hk : initial.toNat < lines.length := by omega
  obtain ⟨outs, h1, h2⟩ :=
    contextifyFramesValues_eq grow reader H (before ++ frame :: after) hvalid
  have hfound : windowFoundMem reader frame = true := by simp [windowFoundMem, hread]
  rw [List.filter_append, List.filter_cons, hfound] at h2
  simp only [if_true] at h2
  obtain ⟨o1, o, o2, e1, e2, e3⟩ := forall₂_middle _ frame _ _ outs h2
  have hv := e3 ⟨hpre.1, hpre.2, hpost.1, hpost.2⟩
  rw [contextified_window reader { frame.fields with PreContext := [], PostContext := [] }
      lines initial rfl rfl hread h0 hlt] at hv
  have hout : FrameMem.value (contextifyFramesMem grow reader H (before ++ frame :: after)).1 o
      = { frame.fields with
          PreContext := lines.take initial.toNat
          ContextLine := lines.getD initial.toNat []
          PostContext := lines.drop (initial.toNat + 1) } := by
    rw [hv]
  refine ⟨o1.map (FrameMem.value (contextifyFramesMem grow reader H (before ++ frame :: after)).1),
    FrameMem.value (contextifyFramesMem grow reader H (before ++ frame :: after)).1 o,
    o2.map (FrameMem.value (contextifyFramesMem grow reader H (before ++ frame :: after)).1),
    ?_, ?_, hout, ?_, ?_, ?_⟩
  · rw [h1, e1]; simp
  · simp [e2]
  · rw [hout]; simp [List.getD_eq_getElem _ _ hk, List.getElem?_eq_getElem hk]
  · rw [hout]
    simp only [List.getD_eq_getElem _ _ hk, List.append_assoc, List.singleton_append]
    rw [← List.drop_eq_getElem_cons hk]
    exact List.take_append_drop _ _
  · intro h11 h5
    rw [hout]
    subst h5
    simp [h11]

/-- Witness for C4: a frame built by `NewFrame`, with `nil` context slices,
between two frames that share a slice with spare capacity; its 11-line window
with target index 5 is split into 5, 1 and 5 lines. -/
theorem contextifyFrames_window_split_witness :
    (∀ g ∈ [sharedFrameA] ++ FrameMem.ofFrame sampleFrame :: [sharedFrameB],
        g.spareIn sampleHeap.length)
      ∧ (contextifyFramesValues doubling twoWindowReader sampleHeap
            ([sharedFrameA] ++ FrameMem.ofFrame sampleFrame :: [sharedFrameB])).map
          (fun f => (f.PreContext.length, f.ContextLine, f.PostContext.length))
        = [(5, utf8 "line 6", 5), (5, utf8 "line 6", 5), (5, utf8 "line 17", 5)]
      ∧ ((contextifyFramesValues doubling twoWindowReader sampleHeap
            ([sharedFrameA] ++ FrameMem.ofFrame sampleFrame :: [sharedFrameB]))[1]?).map
          (fun f => f.PreContext)
        = some (sampleLines.take 5) := by
  have hvalid : ∀ g ∈ [sharedFrameA] ++ FrameMem.ofFrame sampleFrame :: [sharedFrameB],
      g.spareIn sampleHeap.length := by
    intro g hg
    simp only [List.singleton_append, List.mem_cons, List.mem_singleton, List.mem_nil_iff,
      or_false] at hg
    rcases hg with rfl | rfl | rfl <;>
      constructor <;> intro _ <;> decide
  obtain ⟨o1, out, o2, h1, h2, h3, -⟩ :=
    contextifyFrames_window_split doubling twoWindowReader sampleHeap [sharedFrameA]
      [sharedFrameB] (FrameMem.ofFrame sampleFrame) sampleLines 5 hvalid
      ⟨rfl, rfl⟩ ⟨rfl, rfl⟩ (by decide) (by decide) (by decide)
  have hlen : o1.length = 1 := by rw [h2]; decide
  refine ⟨hvalid, by decide, ?_⟩
  rw [h1, List.getElem?_append_right (by omega), hlen, h3]
  simp

/-- A call with no arguments is accepted by a variadic method whose only
parameter is the variadic one, and rejected by a method with a plain
parameter. -/
theorem ExtractStacktrace_call_arity (symtab : List Nat → List RuntimeFrame)
    (reader : SourceReader) :
    ExtractStacktrace symtab reader (.value (some ⟨1, true, [.nonSlice]⟩)) = .ok none
      ∧ ExtractStacktrace symtab reader (.value (some ⟨1, false, [.nonSlice]⟩))
          = .error .callWithTooFewArguments
      ∧ ExtractStacktrace symtab reader (.value (some ⟨2, true, [.nonSlice]⟩))
          = .error .callWithTooFewArguments :=
  ⟨rfl, rfl, rfl⟩

end SentryGo
